import Mathlib

/-
Verification of the vibesdk code-generation service against its
natural-language specification.

Each section shallowly embeds one component of the TypeScript source:
pure functions become Lean functions, stateful classes become explicit
state-passing functions, host effects (child processes, the network,
the CSRF service) become oracle parameters describing their outcome.
Definitions are transcribed from the source files named in the section
headers; theorems then settle the frozen claims about the spec.
-/

set_option maxRecDepth 4096

/-! ## JavaScript value helpers

Minimal model of the JavaScript dynamic values that matter here:
`error.code` may be a number, a string (such as an errno name) or
undefined, and `x || y` picks `y` exactly when `x` is falsy. -/

/-- A JavaScript value as it appears in `error.code` and `exitCode`. -/
inductive JsVal where
  | num (n : Int)
  | str (s : String)
  | undef
deriving Repr, DecidableEq

/-- JavaScript falsiness for the values above: 0, the empty string and
undefined are falsy. -/
def JsVal.falsy : JsVal → Bool
  | .num n => n == 0
  | .str s => s == ""
  | .undef => true

/-- JavaScript short-circuit `a || b` on these values. -/
def JsVal.orElse (a b : JsVal) : JsVal :=
  if a.falsy then b else a

/-! ## String helpers

Character-list implementations of the JavaScript string operations the
source uses (`startsWith`, `toLowerCase`, `toUpperCase`, `split`), kept
structural so that concrete instances evaluate inside proofs. -/

/-- Split a character list on a separator character, as `s.split(sep)`. -/
def charSplit (sep : Char) : List Char → List (List Char)
  | [] => [[]]
  | c :: rest =>
    if c = sep then [] :: charSplit sep rest
    else
      match charSplit sep rest with
      | s :: ss => (c :: s) :: ss
      | [] => [[c]]

/-- JavaScript `s.startsWith(pre)`. -/
def jsStartsWith (s pre : String) : Bool :=
  pre.toList.isPrefixOf s.toList

/-- JavaScript `s.toLowerCase()` (ASCII, all that the source compares). -/
def jsToLower (s : String) : String :=
  String.mk (s.toList.map Char.toLower)

/-- JavaScript `s.toUpperCase()` (ASCII). -/
def jsToUpper (s : String) : String :=
  String.mk (s.toList.map Char.toUpper)

/-- Join strings with slashes (the inverse of splitting on `/`). -/
def slashJoin : List String → String
  | [] => ""
  | [s] => s
  | s :: rest => s ++ "/" ++ slashJoin rest

/-! ## Node path arithmetic

Model of `path.posix.join`/`normalize` from Node: segments are split on
slashes, `.` and empty segments are dropped, and a `..` segment pops the
previous real segment (for an absolute path, surplus `..` at the root is
discarded, as Node does). `path.join(a, b)` concatenates with a slash and
then normalizes. -/

/-- Collapse path segments the way Node `path.posix.normalize` does.
The accumulator holds the already-kept segments in reverse order. -/
def collapseSegs (isAbs : Bool) : List String → List String → List String
  | stack, [] => stack.reverse
  | stack, seg :: rest =>
    if seg = "" || seg = "." then collapseSegs isAbs stack rest
    else if seg = ".." then
      match stack with
      | top :: stackTail =>
        if top = ".." then collapseSegs isAbs (".." :: stack) rest
        else collapseSegs isAbs stackTail rest
      | [] =>
        if isAbs then collapseSegs isAbs [] rest
        else collapseSegs isAbs [".."] rest
    else collapseSegs isAbs (seg :: stack) rest

/-- Node `path.posix.normalize` on a nonempty path string. -/
def pathNormalize (s : String) : String :=
  let isAbs := jsStartsWith s "/"
  let segs := collapseSegs isAbs [] ((charSplit '/' s.toList).map String.mk)
  let body := slashJoin segs
  if isAbs then "/" ++ body
  else if body = "" then "." else body

/-- Node `path.join(a, b)`: join with a slash, then normalize. -/
def pathJoin (a b : String) : String :=
  pathNormalize (a ++ "/" ++ b)

/-- Boolean substring test, as JavaScript `s.includes(pat)`. -/
def strContains (s pat : String) : Bool :=
  go s.toList pat.toList
where
  go : List Char → List Char → Bool
    | [], p => p.isEmpty
    | l@(_ :: tl), p => p.isPrefixOf l || go tl p

/-- The traversal test used by LocalSandbox: does the string contain
the two-character sequence `..` anywhere. -/
def hasDotDot (s : String) : Bool := strContains s ".."

/-! ## LocalSandbox (src/worker/services/sandbox/LocalSandbox.ts)

`writeFile`/`readFile` compute `fullPath = path.join(basePath, filePath)`
and reject when `fullPath.includes("..")`; `exec`/`startProcess` test the
raw `cwd` instead. The filesystem and `execAsync` child process are
oracles: the embedding records which absolute path would be handed to
`fs.writeFile`/`fs.readFile`. -/

/-- Result of `LocalSandbox.writeFile`: the echoed logical path, plus the
absolute path actually handed to `fs.writeFile` (none when the guard threw
and the catch block returned a failure). -/
structure LocalWriteResult where
  success : Bool
  path : String
  written : Option String
deriving Repr, DecidableEq

/-- LocalSandbox.writeFile: join onto the base directory, then apply the
traversal guard to the joined path. -/
def localWriteFile (base filePath : String) : LocalWriteResult :=
  let fullPath := pathJoin base filePath
  if hasDotDot fullPath then
    { success := false, path := filePath, written := none }
  else
    { success := true, path := filePath, written := some fullPath }

/-- Result of `LocalSandbox.readFile`: the absolute path handed to
`fs.readFile`, none when the guard threw. -/
structure LocalReadResult where
  success : Bool
  readFrom : Option String
  exitCode : Nat
deriving Repr, DecidableEq

/-- LocalSandbox.readFile: same joined-path guard as writeFile. -/
def localReadFile (base filePath : String) : LocalReadResult :=
  let fullPath := pathJoin base filePath
  if hasDotDot fullPath then
    { success := false, readFrom := none, exitCode := 1 }
  else
    { success := true, readFrom := some fullPath, exitCode := 0 }

/-- Outcome of the `execAsync` child process oracle: fulfilled with
output, or rejected with an error carrying `code`/`stdout`/`stderr`. -/
inductive ExecOutcome where
  | ok (stdout stderr : String)
  | fail (code : JsVal) (stdout stderr : String)
deriving Repr, DecidableEq

/-- Whether the oracle outcome is a fulfilled command. -/
def ExecOutcome.isOk : ExecOutcome → Bool
  | .ok _ _ => true
  | .fail _ _ _ => false

/-- Response shape of `LocalSandbox.exec`; stdout/stderr are `none` when
the caught error carried no such field (a plain Error from the guard). -/
structure ExecResponse where
  stdout : Option String
  stderr : Option String
  exitCode : JsVal
deriving Repr, DecidableEq

/-- LocalSandbox.exec: guard the cwd, run the command, and convert every
thrown error into a returned response with `exitCode = error.code || 1`. -/
def localExec (base : String) (cwdOpt : Option String) (runner : ExecOutcome) :
    ExecResponse :=
  let cwd := cwdOpt.getD base
  if hasDotDot cwd then
    { stdout := none, stderr := none, exitCode := JsVal.orElse .undef (.num 1) }
  else
    match runner with
    | .ok o e => { stdout := some o, stderr := some e, exitCode := .num 0 }
    | .fail c o e =>
      { stdout := some o, stderr := some e, exitCode := JsVal.orElse c (.num 1) }

/-! ## CSRF middleware (src/worker/app.ts)

The middleware is a function of the request, of the outcome of
`CsrfService.enforce(req, undefined)` (an oracle: token valid, or a
SecurityError of type CSRF_VIOLATION), and of the response status of the
downstream handler. Per the WHATWG fetch standard and Hono, `c.req.url` is
the absolute request URL including scheme and host; `urlPath` extracts
the path component from it. -/

/-- The request fields the middleware looks at. `url` is the absolute
request URL, as `c.req.url` yields in Hono. -/
structure HttpReq where
  method : String
  url : String
  upgradeHeader : Option String
deriving Repr, DecidableEq

/-- Oracle outcome of `CsrfService.enforce(request, undefined)`. -/
inductive CsrfCheck where
  | valid
  | violation
deriving Repr, DecidableEq

/-- What the middleware did: final status, the JSON error code when the
middleware answered itself, whether the route handler ran, and whether
`CsrfService.enforce(request, response)` ran (which per the spec stamps a
fresh CSRF token onto the response). -/
structure MiddlewareResult where
  status : Nat
  bodyCode : Option String
  handlerRan : Bool
  tokenSet : Bool
deriving Repr, DecidableEq

/-- Scan for the `://` scheme separator and return what follows it. -/
def afterScheme : List Char → Option (List Char)
  | ':' :: '/' :: '/' :: rest => some rest
  | _ :: tl => afterScheme tl
  | [] => none

/-- Extract the path component of an absolute URL string: everything
from the first slash after the scheme-and-host part. -/
def urlPath (u : String) : String :=
  match afterScheme u.toList with
  | some rest => String.mk (rest.dropWhile (fun c => !(c = '/')))
  | none => u

/-- The CSRF middleware of createApp, transcribed from src/worker/app.ts:
websocket upgrades pass through; GET/HEAD/OPTIONS run the handler and then
set a token only when `c.req.url.startsWith("/api/")` and the status is
below 400; other methods validate first and a violation yields a 403 JSON
response without running the handler. -/
def csrfMiddleware (req : HttpReq) (check : CsrfCheck)
    (handlerStatus : Nat) : MiddlewareResult :=
  if jsToLower (req.upgradeHeader.getD "") = "websocket" then
    { status := handlerStatus, bodyCode := none, handlerRan := true, tokenSet := false }
  else
    let m := jsToUpper req.method
    if m = "GET" || m = "HEAD" || m = "OPTIONS" then
      let setIt := jsStartsWith req.url "/api/" && decide (handlerStatus < 400)
      { status := handlerStatus, bodyCode := none, handlerRan := true, tokenSet := setIt }
    else
      match check with
      | .valid =>
        { status := handlerStatus, bodyCode := none, handlerRan := true, tokenSet := false }
      | .violation =>
        { status := 403, bodyCode := some "CSRF_VIOLATION", handlerRan := false,
          tokenSet := false }

/-! ## AgentManager (src/worker/agents/AgentManager.ts)

The registry is the `agents` Map keyed by agent id; agents themselves are
abstract handles. `createAgent` checks for an existing id, constructs and
initializes the agent (initialization may throw, modelled by a Boolean
oracle), then stores it. -/

/-- The process-wide agent registry: insertion-ordered id-to-agent map. -/
structure AgentReg where
  agents : List (String × Nat)
deriving Repr, DecidableEq

/-- AgentManager.getAgent: Map.get. -/
def getAgent (r : AgentReg) (id : String) : Option Nat :=
  (r.agents.find? (fun p => p.1 = id)).map (fun p => p.2)

/-- AgentManager.createAgent: reject an existing id, otherwise initialize
the new agent (propagating a thrown initialization error without touching
the registry) and insert it. -/
def createAgent (r : AgentReg) (id : String) (newAgent : Nat)
    (initOk : Bool) : Except String (AgentReg × Nat) :=
  if r.agents.any (fun p => p.1 = id) then
    .error ("Agent with ID " ++ id ++ " already exists.")
  else if initOk then
    .ok ({ agents := r.agents ++ [(id, newAgent)] }, newAgent)
  else
    .error "initialization failed"

theorem find_append_of_not_found {l : List (String × Nat)} {id : String}
    (h : l.find? (fun p => p.1 = id) = none) (kv : String × Nat) (hk : kv.1 = id) :
    (l ++ [kv]).find? (fun p => p.1 = id) = some kv := by
  induction l with
  | nil => simp [List.find?, hk]
  | cons hd tl ih =>
    rw [List.cons_append]
    rw [List.find?_cons] at h ⊢
    rcases hdec : (decide (hd.1 = id)) with _ | _
    · simp only [hdec] at h ⊢
      exact ih h
    · simp [hdec] at h

/-- C9: createAgent is atomic for the registry: an id that is already
live makes createAgent throw the `already exists` error (so the registry
is untouched and getAgent keeps answering the original agent), while a
fresh id ends with the registry extended and getAgent returning the new
agent. -/
theorem createAgent_atomic (r : AgentReg) (id : String) (newAgent : Nat) :
    ((getAgent r id).isSome →
      createAgent r id newAgent true =
        .error ("Agent with ID " ++ id ++ " already exists.")) ∧
    (getAgent r id = none →
      createAgent r id newAgent true =
        .ok ({ agents := r.agents ++ [(id, newAgent)] }, newAgent) ∧
      getAgent { agents := r.agents ++ [(id, newAgent)] } id = some newAgent) := by
  constructor
  · intro hsome
    unfold getAgent at hsome
    unfold createAgent
    have hany : r.agents.any (fun p => p.1 = id) = true := by
      rcases hfind : r.agents.find? (fun p => p.1 = id) with _ | v
      · rw [hfind] at hsome; simp at hsome
      · have := List.find?_some hfind
        have hmem := List.mem_of_find?_eq_some hfind
        exact List.any_eq_true.mpr ⟨v, hmem, this⟩
    simp [hany]
  · intro hnone
    unfold getAgent at hnone
    have hfind : r.agents.find? (fun p => p.1 = id) = none := by
      rcases hfind : r.agents.find? (fun p => p.1 = id) with _ | v
      · exact hfind
      · rw [hfind] at hnone; simp at hnone
    have hany : r.agents.any (fun p => p.1 = id) = false := by
      rw [List.any_eq_false]
      intro p hp
      have := List.find?_eq_none.mp hfind p hp
      simpa using this
    constructor
    · unfold createAgent
      simp [hany]
    · unfold getAgent
      rw [find_append_of_not_found hfind (id, newAgent) rfl]
      simp

/-- Witness for C9 at a concrete registry: creating id `x` twice in a row
errors the second time, and a fresh id `y` lands in the registry. -/
theorem createAgent_atomic_witness :
    (createAgent { agents := [("x", 5)] } "x" 9 true =
      .error ("Agent with ID " ++ "x" ++ " already exists.")) ∧
    (createAgent { agents := [("x", 5)] } "y" 9 true =
      .ok ({ agents := [("x", 5), ("y", 9)] }, 9) ∧
      getAgent { agents := [("x", 5), ("y", 9)] } "y" = some 9) := by
  refine ⟨(createAgent_atomic { agents := [("x", 5)] } "x" 9).1 (by decide), ?_⟩
  have h := (createAgent_atomic { agents := [("x", 5)] } "y" 9).2 (by decide)
  exact h

/-- C4 evaluated at its failing input: `../escape.txt` plainly contains
`..`, yet writeFile accepts it, because the guard inspects the joined
path after `path.join` has already resolved the `..` away; the write
lands at `/work/escape.txt`, outside the `/work/repo` base directory.
readFile likewise escapes to `/etc/passwd`. Only the exec/startProcess
cwd guard, which tests the raw string, fires. -/
theorem sandbox_traversal_guard_bypassed :
    hasDotDot "../escape.txt" = true ∧
    localWriteFile "/work/repo" "../escape.txt" =
      { success := true, path := "../escape.txt", written := some "/work/escape.txt" } ∧
    jsStartsWith "/work/escape.txt" "/work/repo" = false ∧
    localReadFile "/work/repo" "../../etc/passwd" =
      { success := true, readFrom := some "/etc/passwd", exitCode := 0 } ∧
    (localExec "/work/repo" (some "/work/repo/../x") (.ok "" "")).exitCode = .num 1 := by
  decide

/-- C10: exec is total at its interface: every outcome of the child
process oracle, and the traversal guard itself, is converted into a
returned response; the exit code is 0 exactly when the guard passed and
the command was fulfilled, and every failure maps to `error.code || 1`,
which is never the number 0. -/
theorem localExec_total_exitCode (base : String) (cwdOpt : Option String)
    (runner : ExecOutcome) :
    ((localExec base cwdOpt runner).exitCode = .num 0 ↔
      hasDotDot (cwdOpt.getD base) = false ∧ runner.isOk = true) ∧
    (hasDotDot (cwdOpt.getD base) = true →
      localExec base cwdOpt runner =
        { stdout := none, stderr := none, exitCode := .num 1 }) ∧
    (∀ c o e, runner = .fail c o e →
      (localExec base cwdOpt runner).exitCode ≠ .num 0) := by
  have horelse : ∀ c : JsVal, JsVal.orElse c (.num 1) ≠ .num 0 := by
    intro c
    rcases c with n | s | _ <;> simp [JsVal.orElse, JsVal.falsy] <;>
      split <;> simp_all
  unfold localExec
  rcases runner with ⟨o, e⟩ | ⟨c, o, e⟩ <;>
    by_cases hg : hasDotDot (cwdOpt.getD base) = true <;>
    simp [hg, ExecOutcome.isOk, JsVal.orElse, JsVal.falsy]
  exact fun h => absurd h (by simpa [JsVal.orElse, JsVal.falsy] using horelse c)

/-- Witness for C10 at concrete inputs: an errno-style failure keeps a
nonzero exit code, and a fulfilled command in the base directory yields
exit code 0. -/
theorem localExec_total_exitCode_witness :
    (localExec "/base" (some "/base/app") (.fail (.str "ENOENT") "" "err")).exitCode ≠
      .num 0 ∧
    (localExec "/base" none (.ok "out" "")).exitCode = .num 0 := by
  constructor
  · exact (localExec_total_exitCode "/base" (some "/base/app")
      (.fail (.str "ENOENT") "" "err")).2.2 (.str "ENOENT") "" "err" rfl
  · exact (localExec_total_exitCode "/base" none (.ok "out" "")).1.mpr (by decide)

/-- C8 evaluated at its failing input: a GET to the API path `/api/apps`
answered with status 200 never gets a CSRF token, because the middleware
compares the absolute URL `http://localhost:3000/api/apps` against the
path-shaped literal `/api/`, which can never be its start. The
rejection half does hold: a POST failing validation gets a 403 JSON
response with code CSRF_VIOLATION and the handler never runs. -/
theorem csrf_token_never_set_for_api_get :
    csrfMiddleware
        { method := "GET", url := "http://localhost:3000/api/apps",
          upgradeHeader := none } .valid 200 =
      { status := 200, bodyCode := none, handlerRan := true, tokenSet := false } ∧
    urlPath "http://localhost:3000/api/apps" = "/api/apps" ∧
    csrfMiddleware
        { method := "POST", url := "http://localhost:3000/api/apps",
          upgradeHeader := none } .violation 200 =
      { status := 403, bodyCode := some "CSRF_VIOLATION", handlerRan := false,
        tokenSet := false } := by
  decide

/-! ## InMemoryRateLimitStore
(src/worker/services/rate-limit/InMemoryRateLimitStore.ts)

Buckets are keyed by `ratelimit:{key}:{bucketTimestamp}`; the key string
is modelled as the injective pair (key, bucketTimestamp). Times are in
milliseconds (`Date.now()`), `Math.floor` on a nonnegative divisor is
`Int.fdiv`. The probabilistic `cleanup` sweep only deletes buckets whose
`expiresAt` lies in the past; those contribute zero to every windowed sum
and are reset (not read) on reuse, so it never changes any result of
`increment` and is omitted. The try/catch fail-open path cannot fire in
the pure embedding. -/

/-- One counter bucket, as stored in the Map. -/
structure RlBucket where
  count : Nat
  expiresAt : Int
deriving Repr, DecidableEq

/-- The KVRateLimitConfig fields read by increment; absent optional
fields are `none` (JavaScript undefined). `period`, `bucketSize`,
`burstWindow` are in seconds. -/
structure KVRateLimitConfig where
  limit : Nat
  period : Int
  bucketSize : Option Int
  burst : Option Nat
  burstWindow : Option Int
deriving Repr, DecidableEq

/-- The static store Map, in insertion order. -/
abbrev RlStore := List ((String × Int) × RlBucket)

/-- JavaScript Map.get. -/
def rlLookup (s : RlStore) (k : String × Int) : Option RlBucket :=
  (s.find? (fun p => p.1 = k)).map (fun p => p.2)

/-- JavaScript Map.set: overwrite in place, or append. -/
def rlSet (s : RlStore) (k : String × Int) (b : RlBucket) : RlStore :=
  if s.any (fun p => p.1 = k) then
    s.map (fun p => if p.1 = k then (k, b) else p)
  else s ++ [(k, b)]

/-- generateBucketKeys: bucket timestamps from
`floor((now-window)/bucketSize)*bucketSize` up to `now`, stepping by the
bucket size; the loop runs `floor((now-start)/bucketSize) + 1` times. -/
def genBucketTimes (now windowMs bucketMs : Int) : List Int :=
  (List.range
      (((now - (now - windowMs).fdiv bucketMs * bucketMs).fdiv bucketMs).toNat + 1)).map
    (fun i : Nat => (now - windowMs).fdiv bucketMs * bucketMs + (i : Int) * bucketMs)

/-- The reduce over bucket keys: a bucket counts only while
`bucket.expiresAt > now`. -/
def sumCounts (s : RlStore) (key : String) (now : Int) : List Int → Nat
  | [] => 0
  | t :: ts =>
    (match rlLookup s (key, t) with
     | some b => if now < b.expiresAt then b.count else 0
     | none => 0) + sumCounts s key now ts

/-- Bucket size in milliseconds: `(config.bucketSize ?? 10) * 1000`. -/
def rlBs (cfg : KVRateLimitConfig) : Int := cfg.bucketSize.getD 10 * 1000

/-- The current bucket timestamp `floor(now / bucketSize) * bucketSize`. -/
def rlCurTs (cfg : KVRateLimitConfig) (now : Int) : Int :=
  now.fdiv (rlBs cfg) * rlBs cfg

/-- Bucket timestamps of the main window. -/
def rlMainTimes (cfg : KVRateLimitConfig) (now : Int) : List Int :=
  genBucketTimes now (cfg.period * 1000) (rlBs cfg)

/-- The windowed sum `mainCount`. -/
def rlMainCount (s : RlStore) (key : String) (cfg : KVRateLimitConfig)
    (now : Int) : Nat :=
  sumCounts s key now (rlMainTimes cfg now)

/-- JavaScript truthiness of `config.burst`. -/
def rlBurstActive (cfg : KVRateLimitConfig) : Bool := cfg.burst.getD 0 ≠ 0

/-- The windowed sum `burstCount` (empty key list when burst is off). -/
def rlBurstCount (s : RlStore) (key : String) (cfg : KVRateLimitConfig)
    (now : Int) : Nat :=
  if rlBurstActive cfg then
    sumCounts s key now (genBucketTimes now (cfg.burstWindow.getD 60 * 1000) (rlBs cfg))
  else 0

/-- Bucket expiry written on success:
`now + (max(period, burstWindow ?? 60) + (bucketSize ?? 10)) * 1000`. -/
def rlExpiresAt (cfg : KVRateLimitConfig) (now : Int) : Int :=
  now + (max cfg.period (cfg.burstWindow.getD 60) + cfg.bucketSize.getD 10) * 1000

/-- The current-bucket update performed on the success path. -/
def rlUpdate (s : RlStore) (key : String) (cfg : KVRateLimitConfig)
    (now : Int) : RlStore :=
  match rlLookup s (key, rlCurTs cfg now) with
  | some b =>
    if now < b.expiresAt then
      rlSet s (key, rlCurTs cfg now) ⟨b.count + 1, rlExpiresAt cfg now⟩
    else rlSet s (key, rlCurTs cfg now) ⟨1, rlExpiresAt cfg now⟩
  | none => rlSet s (key, rlCurTs cfg now) ⟨1, rlExpiresAt cfg now⟩

/-- Result record of increment. -/
structure RateLimitResult where
  success : Bool
  remainingLimit : Option Int
deriving Repr, DecidableEq

/-- InMemoryRateLimitStore.increment, returning the result and the
updated store. -/
def rlIncrement (s : RlStore) (key : String) (cfg : KVRateLimitConfig)
    (now : Int) : RateLimitResult × RlStore :=
  if cfg.limit ≤ rlMainCount s key cfg now then
    (⟨false, some 0⟩, s)
  else if rlBurstActive cfg ∧ cfg.burst.getD 0 ≤ rlBurstCount s key cfg now then
    (⟨false, some 0⟩, s)
  else
    (⟨true, some (max 0 ((cfg.limit : Int) - rlMainCount s key cfg now - 1))⟩,
      rlUpdate s key cfg now)

/-- getRemainingLimit: the read-only analogue. -/
def rlGetRemainingLimit (s : RlStore) (key : String) (cfg : KVRateLimitConfig)
    (now : Int) : Int :=
  max 0 ((cfg.limit : Int) - rlMainCount s key cfg now)

theorem rlLookup_nil (k : String × Int) : rlLookup [] k = none := rfl

theorem rlLookup_cons (e : (String × Int) × RlBucket) (rest : RlStore)
    (k : String × Int) :
    rlLookup (e :: rest) k = if e.1 = k then some e.2 else rlLookup rest k := by
  show rlLookup (e :: rest) k = _
  unfold rlLookup
  rw [List.find?_cons]
  by_cases h : e.1 = k <;> simp [h]

theorem sumCounts_nil_store (key : String) (now : Int) (times : List Int) :
    sumCounts [] key now times = 0 := by
  induction times with
  | nil => rfl
  | cons t ts ih => simp [sumCounts, rlLookup_nil, ih]

theorem sumCounts_cons_entry (key : String) (now b : Int) (bk : RlBucket)
    (rest : RlStore) (times : List Int) (hnod : times.Nodup)
    (hrest : rlLookup rest (key, b) = none) :
    sumCounts (((key, b), bk) :: rest) key now times =
      (if b ∈ times ∧ now < bk.expiresAt then bk.count else 0) +
        sumCounts rest key now times := by
  induction times with
  | nil => simp [sumCounts]
  | cons t ts ih =>
    have hnodts : ts.Nodup := hnod.of_cons
    have hih := ih hnodts
    by_cases hbt : b = t
    · subst hbt
      have hbnotts : b ∉ ts := (List.nodup_cons.mp hnod).1
      simp only [sumCounts, rlLookup_cons, hih]
      simp [hbnotts, hrest]
    · simp only [sumCounts, rlLookup_cons, hih]
      have hne : ((key, b) = (key, t)) = False := by
        simp [Prod.ext_iff, hbt]
      simp only [hne, if_false, List.mem_cons]
      have hor : (b = t ∨ b ∈ ts) ↔ b ∈ ts := by
        constructor
        · rintro (h | h)
          · exact absurd h hbt
          · exact h
        · exact Or.inr
      rw [if_congr (and_congr_left (fun _ => hor)) rfl rfl]
      split <;> omega

theorem genBucketTimes_nodup (now w bs : Int) (hbs : bs ≠ 0) :
    (genBucketTimes now w bs).Nodup := by
  have hinj : Function.Injective
      (fun i : Nat => (now - w).fdiv bs * bs + (i : Int) * bs) := by
    intro i j h
    simp only at h
    have h2 : (i : Int) * bs = (j : Int) * bs := by linarith
    exact_mod_cast mul_right_cancel₀ hbs h2
  exact List.Nodup.map hinj (List.nodup_range _)

theorem mem_genBucketTimes_10000 (now w b : Int) (hw : 0 ≤ w) :
    b ∈ genBucketTimes now w 10000 ↔
      ((10000 : Int) ∣ b ∧ now - w - 10000 < b ∧ b ≤ now) := by
  have hfd : ∀ x : Int, x.fdiv 10000 = x / 10000 := fun x =>
    Int.fdiv_eq_ediv _ (by norm_num)
  unfold genBucketTimes
  rw [List.mem_map]
  constructor
  · rintro ⟨i, hir, rfl⟩
    rw [List.mem_range] at hir
    rw [hfd, hfd] at hir
    rw [hfd]
    refine ⟨⟨(now - w) / 10000 + i, by ring⟩, by omega, by omega⟩
  · rintro ⟨⟨k, rfl⟩, hlo, hhi⟩
    refine ⟨(10000 * k / 10000 - (now - w) / 10000).toNat,
      List.mem_range.mpr ?_, ?_⟩
    · rw [hfd, hfd]; omega
    · rw [hfd]; omega

theorem rlIncrement_reject (s : RlStore) (key : String) (cfg : KVRateLimitConfig)
    (now : Int) (h : cfg.limit ≤ rlMainCount s key cfg now) :
    rlIncrement s key cfg now = (⟨false, some 0⟩, s) := by
  unfold rlIncrement
  rw [if_pos h]

theorem rlIncrement_accept (s : RlStore) (key : String) (cfg : KVRateLimitConfig)
    (now : Int) (hmain : rlMainCount s key cfg now < cfg.limit)
    (hburst : ¬(rlBurstActive cfg = true ∧ cfg.burst.getD 0 ≤ rlBurstCount s key cfg now)) :
    rlIncrement s key cfg now =
      (⟨true, some (max 0 ((cfg.limit : Int) - rlMainCount s key cfg now - 1))⟩,
        rlUpdate s key cfg now) := by
  unfold rlIncrement
  rw [if_neg (by omega), if_neg (by exact_mod_cast hburst)]

/-- The configuration of the rate-limit-trip scenario in the spec:
limit 2, period 60 s, bucket size 10 s, no burst. -/
def tripCfg : KVRateLimitConfig :=
  { limit := 2, period := 60, bucketSize := some 10, burst := none,
    burstWindow := none }

/-- C3: with limit 2, period 60 s and bucket size 10 s, three increments
of the same key within 10 seconds (times in ms) return success with
remaining 1, success with remaining 0, then failure with remaining 0 —
and the rejected third call leaves the store untouched. The increment
semantics itself (window sums, burst check, current-bucket update,
remaining = max(0, limit - mainCount - 1)) is the definition rlIncrement
transcribed from the source. -/
theorem rateLimit_trip (key : String) (t1 t2 t3 : Int) (h12 : t1 ≤ t2)
    (h23 : t2 ≤ t3) (hspan : t3 ≤ t1 + 10000) :
    (rlIncrement [] key tripCfg t1).1 = ⟨true, some 1⟩ ∧
    (rlIncrement (rlIncrement [] key tripCfg t1).2 key tripCfg t2).1 =
      ⟨true, some 0⟩ ∧
    (rlIncrement (rlIncrement (rlIncrement [] key tripCfg t1).2 key tripCfg t2).2
        key tripCfg t3).1 = ⟨false, some 0⟩ ∧
    (rlIncrement (rlIncrement (rlIncrement [] key tripCfg t1).2 key tripCfg t2).2
        key tripCfg t3).2 =
      (rlIncrement (rlIncrement [] key tripCfg t1).2 key tripCfg t2).2 := by
  have hfd : ∀ x : Int, x.fdiv 10000 = x / 10000 := fun x =>
    Int.fdiv_eq_ediv _ (by norm_num)
  have hexp : ∀ t : Int, rlExpiresAt tripCfg t = t + 70000 := by
    intro t
    unfold rlExpiresAt tripCfg
    norm_num
  have hc1 : rlCurTs tripCfg t1 = t1.fdiv 10000 * 10000 := rfl
  have hc2 : rlCurTs tripCfg t2 = t2.fdiv 10000 * 10000 := rfl
  have hmt : ∀ t : Int, rlMainTimes tripCfg t = genBucketTimes t 60000 10000 :=
    fun _ => rfl
  have hmem1T2 : rlCurTs tripCfg t1 ∈ genBucketTimes t2 60000 10000 := by
    rw [mem_genBucketTimes_10000 _ _ _ (by norm_num)]
    refine ⟨⟨t1.fdiv 10000, by rw [hc1]; ring⟩, ?_, ?_⟩ <;>
      rw [hc1, hfd] <;> omega
  have hmem1T3 : rlCurTs tripCfg t1 ∈ genBucketTimes t3 60000 10000 := by
    rw [mem_genBucketTimes_10000 _ _ _ (by norm_num)]
    refine ⟨⟨t1.fdiv 10000, by rw [hc1]; ring⟩, ?_, ?_⟩ <;>
      rw [hc1, hfd] <;> omega
  have hmem2T3 : rlCurTs tripCfg t2 ∈ genBucketTimes t3 60000 10000 := by
    rw [mem_genBucketTimes_10000 _ _ _ (by norm_num)]
    refine ⟨⟨t2.fdiv 10000, by rw [hc2]; ring⟩, ?_, ?_⟩ <;>
      rw [hc2, hfd] <;> omega
  have hm1 : rlMainCount [] key tripCfg t1 = 0 := by
    unfold rlMainCount
    exact sumCounts_nil_store _ _ _
  have hupd1 : rlUpdate [] key tripCfg t1 =
      [((key, rlCurTs tripCfg t1), ⟨1, t1 + 70000⟩)] := by
    unfold rlUpdate rlSet
    rw [rlLookup_nil]
    simp [hexp t1]
  have e1 : rlIncrement [] key tripCfg t1 =
      (⟨true, some 1⟩, [((key, rlCurTs tripCfg t1), ⟨1, t1 + 70000⟩)]) := by
    rw [rlIncrement_accept _ _ _ _ (by rw [hm1]; norm_num [tripCfg])
      (by simp [rlBurstActive, tripCfg])]
    rw [hm1, hupd1]
    norm_num [tripCfg]
  have hm2 : rlMainCount [((key, rlCurTs tripCfg t1), ⟨1, t1 + 70000⟩)]
      key tripCfg t2 = 1 := by
    unfold rlMainCount
    rw [hmt]
    rw [sumCounts_cons_entry key t2 (rlCurTs tripCfg t1) ⟨1, t1 + 70000⟩ []
      (genBucketTimes t2 60000 10000)
      (genBucketTimes_nodup _ _ _ (by norm_num)) (rlLookup_nil _)]
    rw [sumCounts_nil_store]
    rw [if_pos ⟨hmem1T2, show t2 < t1 + 70000 by omega⟩]
  have e2 : rlIncrement [((key, rlCurTs tripCfg t1), ⟨1, t1 + 70000⟩)]
      key tripCfg t2 =
      (⟨true, some 0⟩,
        rlUpdate [((key, rlCurTs tripCfg t1), ⟨1, t1 + 70000⟩)] key tripCfg t2) := by
    rw [rlIncrement_accept _ _ _ _ (by rw [hm2]; norm_num [tripCfg])
      (by simp [rlBurstActive, tripCfg])]
    rw [hm2]
    norm_num [tripCfg]
  have e1b : (rlIncrement [] key tripCfg t1).2 =
      [((key, rlCurTs tripCfg t1), ⟨1, t1 + 70000⟩)] := by rw [e1]
  have e2b : (rlIncrement [((key, rlCurTs tripCfg t1), ⟨1, t1 + 70000⟩)]
      key tripCfg t2).2 =
      rlUpdate [((key, rlCurTs tripCfg t1), ⟨1, t1 + 70000⟩)] key tripCfg t2 := by
    rw [e2]
  refine ⟨by rw [e1], by rw [e1b, e2], ?_⟩
  rw [e1b, e2b]
  by_cases hcc : rlCurTs tripCfg t2 = rlCurTs tripCfg t1
  case pos =>
    have hlk2 : rlLookup [((key, rlCurTs tripCfg t1), ⟨1, t1 + 70000⟩)]
        (key, rlCurTs tripCfg t2) = some ⟨1, t1 + 70000⟩ := by
      rw [rlLookup_cons, if_pos (by rw [hcc])]
    have hupd2 : rlUpdate [((key, rlCurTs tripCfg t1), ⟨1, t1 + 70000⟩)]
        key tripCfg t2 = [((key, rlCurTs tripCfg t2), ⟨2, t2 + 70000⟩)] := by
      have ht : t2 < t1 + 70000 := by omega
      unfold rlUpdate
      simp only [hlk2, rlSet]
      simp [hcc, hexp t2, ht]
    rw [hupd2]
    have hm3 : rlMainCount [((key, rlCurTs tripCfg t2), ⟨2, t2 + 70000⟩)]
        key tripCfg t3 = 2 := by
      unfold rlMainCount
      rw [hmt]
      rw [sumCounts_cons_entry key t3 (rlCurTs tripCfg t2) ⟨2, t2 + 70000⟩ []
        (genBucketTimes t3 60000 10000)
        (genBucketTimes_nodup _ _ _ (by norm_num)) (rlLookup_nil _)]
      rw [sumCounts_nil_store]
      rw [if_pos ⟨hmem2T3, show t3 < t2 + 70000 by omega⟩]
    rw [rlIncrement_reject _ _ _ _ (by rw [hm3]; norm_num [tripCfg])]
    exact ⟨rfl, rfl⟩
  case neg =>
    have hlook : rlLookup [((key, rlCurTs tripCfg t1), ⟨1, t1 + 70000⟩)]
        (key, rlCurTs tripCfg t2) = none := by
      rw [rlLookup_cons, if_neg, rlLookup_nil]
      intro h
      exact hcc (congrArg Prod.snd h).symm
    have hupd2 : rlUpdate [((key, rlCurTs tripCfg t1), ⟨1, t1 + 70000⟩)]
        key tripCfg t2 =
        [((key, rlCurTs tripCfg t1), ⟨1, t1 + 70000⟩),
         ((key, rlCurTs tripCfg t2), ⟨1, t2 + 70000⟩)] := by
      have hne : ¬((key, rlCurTs tripCfg t1) = (key, rlCurTs tripCfg t2)) := by
        intro h
        exact hcc (congrArg Prod.snd h).symm
      unfold rlUpdate
      simp only [hlook, rlSet]
      simp [hne, hexp t2]
    rw [hupd2]
    have hrest : rlLookup [((key, rlCurTs tripCfg t2), ⟨1, t2 + 70000⟩)]
        (key, rlCurTs tripCfg t1) = none := by
      rw [rlLookup_cons, if_neg, rlLookup_nil]
      intro h
      exact hcc (congrArg Prod.snd h)
    have hm3 : rlMainCount
        [((key, rlCurTs tripCfg t1), ⟨1, t1 + 70000⟩),
         ((key, rlCurTs tripCfg t2), ⟨1, t2 + 70000⟩)] key tripCfg t3 = 2 := by
      unfold rlMainCount
      rw [hmt]
      rw [sumCounts_cons_entry key t3 (rlCurTs tripCfg t1) ⟨1, t1 + 70000⟩
        [((key, rlCurTs tripCfg t2), ⟨1, t2 + 70000⟩)]
        (genBucketTimes t3 60000 10000)
        (genBucketTimes_nodup _ _ _ (by norm_num)) hrest]
      rw [sumCounts_cons_entry key t3 (rlCurTs tripCfg t2) ⟨1, t2 + 70000⟩ []
        (genBucketTimes t3 60000 10000)
        (genBucketTimes_nodup _ _ _ (by norm_num)) (rlLookup_nil _)]
      rw [sumCounts_nil_store]
      rw [if_pos ⟨hmem1T3, show t3 < t1 + 70000 by omega⟩]
      rw [if_pos ⟨hmem2T3, show t3 < t2 + 70000 by omega⟩]
      norm_num
    rw [rlIncrement_reject _ _ _ _ (by rw [hm3]; norm_num [tripCfg])]
    exact ⟨rfl, rfl⟩

/-- Witness for C3 at the concrete times 0 ms, 5000 ms, 9000 ms. -/
theorem rateLimit_trip_witness :
    (rlIncrement [] "u1" tripCfg 0).1 = ⟨true, some 1⟩ ∧
    (rlIncrement (rlIncrement [] "u1" tripCfg 0).2 "u1" tripCfg 5000).1 =
      ⟨true, some 0⟩ ∧
    (rlIncrement
        (rlIncrement (rlIncrement [] "u1" tripCfg 0).2 "u1" tripCfg 5000).2
        "u1" tripCfg 9000).1 = ⟨false, some 0⟩ ∧
    (rlIncrement
        (rlIncrement (rlIncrement [] "u1" tripCfg 0).2 "u1" tripCfg 5000).2
        "u1" tripCfg 9000).2 =
      (rlIncrement (rlIncrement [] "u1" tripCfg 0).2 "u1" tripCfg 5000).2 :=
  rateLimit_trip "u1" 0 5000 9000 (by norm_num) (by norm_num) (by norm_num)

/-! ## Conversation log (src/worker/agents/core/state.ts,
getConversationState / setConversationState / addConversationMessage)

For one session id the persistent state is the `full_conversations` row,
the `compact_conversations` row (each an optional serialized message
list; JSON round-tripping is identity here) and the in-memory
`state.conversationMessages` used as a migration fallback when a row is
absent, unparseable or empty. -/

/-- A conversation message: the id is stable across streaming updates. -/
structure ConvMsg where
  conversationId : String
  role : String
  content : String
deriving Repr, DecidableEq

/-- Persistent conversation state for one session id. -/
structure ConvStore where
  fullTable : Option (List ConvMsg)
  compactTable : Option (List ConvMsg)
  inMemory : List ConvMsg
deriving Repr, DecidableEq

/-- What getConversationState returns. -/
structure ConversationState where
  runningHistory : List ConvMsg
  fullHistory : List ConvMsg
deriving Repr, DecidableEq

/-- The conversation ids of a history. -/
def ids (l : List ConvMsg) : List String := l.map (fun m => m.conversationId)

/-- The deduplicateMessages filter: keep the first message per id,
tracking the `seen` set. -/
def dedupGo (seen : List String) : List ConvMsg → List ConvMsg
  | [] => []
  | m :: rest =>
    if m.conversationId ∈ seen then dedupGo seen rest
    else m :: dedupGo (m.conversationId :: seen) rest

/-- deduplicateMessages from getConversationState. -/
def dedupMessages (l : List ConvMsg) : List ConvMsg := dedupGo [] l

/-- getConversationState: load each history from its table, fall back to
the in-memory messages when empty, then deduplicate both. -/
def getConversationState (s : ConvStore) : ConversationState :=
  { runningHistory :=
      dedupMessages
        (if (s.compactTable.getD []).isEmpty then s.inMemory
         else s.compactTable.getD []),
    fullHistory :=
      dedupMessages
        (if (s.fullTable.getD []).isEmpty then s.inMemory
         else s.fullTable.getD []) }

/-- The insert-or-replace step of addConversationMessage on one history:
an already-present conversation id replaces that entry in place, a fresh
id appends. -/
def insertOrReplace (hist : List ConvMsg) (m : ConvMsg) : List ConvMsg :=
  if hist.any (fun x => x.conversationId = m.conversationId) then
    hist.map (fun x => if x.conversationId = m.conversationId then m else x)
  else hist ++ [m]

/-- setConversationState: write both rows back. -/
def setConversationState (s : ConvStore) (cs : ConversationState) : ConvStore :=
  { s with compactTable := some cs.runningHistory,
           fullTable := some cs.fullHistory }

/-- addConversationMessage: read, insert-or-replace in both histories,
write back. -/
def addConversationMessage (s : ConvStore) (m : ConvMsg) : ConvStore :=
  setConversationState s
    { runningHistory := insertOrReplace (getConversationState s).runningHistory m,
      fullHistory := insertOrReplace (getConversationState s).fullHistory m }

theorem dedupGo_ids_nodup (l : List ConvMsg) (seen : List String) :
    (ids (dedupGo seen l)).Nodup ∧ ∀ x ∈ ids (dedupGo seen l), x ∉ seen := by
  induction l generalizing seen with
  | nil => simp [dedupGo, ids]
  | cons mm rest ih =>
    by_cases hmem : mm.conversationId ∈ seen
    · simp only [dedupGo, if_pos hmem]
      exact ih seen
    · simp only [dedupGo, if_neg hmem]
      obtain ⟨h1, h2⟩ := ih (mm.conversationId :: seen)
      refine ⟨?_, ?_⟩
      · rw [show ids (mm :: dedupGo (mm.conversationId :: seen) rest) =
            mm.conversationId :: ids (dedupGo (mm.conversationId :: seen) rest)
            from rfl]
        rw [List.nodup_cons]
        exact ⟨fun hc => (h2 _ hc) (List.mem_cons_self _ _), h1⟩
      · intro x hx
        rw [show ids (mm :: dedupGo (mm.conversationId :: seen) rest) =
            mm.conversationId :: ids (dedupGo (mm.conversationId :: seen) rest)
            from rfl] at hx
        rcases List.mem_cons.mp hx with h | h
        · rw [h]; exact hmem
        · intro hc
          exact (h2 _ h) (List.mem_cons_of_mem _ hc)

theorem dedupGo_eq_self (l : List ConvMsg) (seen : List String)
    (hnd : (ids l).Nodup) (hdisj : ∀ x ∈ ids l, x ∉ seen) :
    dedupGo seen l = l := by
  induction l generalizing seen with
  | nil => rfl
  | cons mm rest ih =>
    have hids : ids (mm :: rest) = mm.conversationId :: ids rest := rfl
    have hmm : mm.conversationId ∉ seen := hdisj _ (by rw [hids]; exact List.mem_cons_self _ _)
    rw [hids] at hnd
    have hnd2 : (ids rest).Nodup := (List.nodup_cons.mp hnd).2
    have hmmrest : mm.conversationId ∉ ids rest := (List.nodup_cons.mp hnd).1
    simp only [dedupGo, if_neg hmm]
    congr 1
    apply ih _ hnd2
    intro x hx hc
    rcases List.mem_cons.mp hc with h | h
    · exact hmmrest (h ▸ hx)
    · exact hdisj x (by rw [hids]; exact List.mem_cons_of_mem _ hx) h

theorem any_id_iff_mem (hist : List ConvMsg) (m : ConvMsg) :
    (hist.any (fun x => x.conversationId = m.conversationId) = true) ↔
      m.conversationId ∈ ids hist := by
  rw [List.any_eq_true]
  unfold ids
  rw [List.mem_map]
  constructor
  · rintro ⟨x, hx, hpx⟩
    exact ⟨x, hx, by simpa using hpx.symm⟩
  · rintro ⟨x, hx, hpx⟩
    exact ⟨x, hx, by simpa using hpx⟩

theorem ids_map_replace (hist : List ConvMsg) (m : ConvMsg) :
    ids (hist.map (fun x =>
      if x.conversationId = m.conversationId then m else x)) = ids hist := by
  induction hist with
  | nil => rfl
  | cons x rest ih =>
    show (if x.conversationId = m.conversationId then m else x).conversationId ::
        ids (rest.map _) = x.conversationId :: ids rest
    rw [ih]
    by_cases h : x.conversationId = m.conversationId
    · rw [if_pos h, h]
    · rw [if_neg h]

theorem ids_append_one (hist : List ConvMsg) (m : ConvMsg) :
    ids (hist ++ [m]) = ids hist ++ [m.conversationId] := by
  unfold ids
  rw [List.map_append]
  rfl

theorem insertOrReplace_nodup (hist : List ConvMsg) (m : ConvMsg)
    (hnd : (ids hist).Nodup) : (ids (insertOrReplace hist m)).Nodup := by
  unfold insertOrReplace
  by_cases h : hist.any (fun x => x.conversationId = m.conversationId) = true
  · rw [if_pos h, ids_map_replace]
    exact hnd
  · rw [if_neg h, ids_append_one]
    have hnotmem : m.conversationId ∉ ids hist := fun hc =>
      h ((any_id_iff_mem hist m).mpr hc)
    refine List.Nodup.append hnd (List.nodup_singleton _) ?_
    intro a ha hb
    rw [List.mem_singleton] at hb
    exact hnotmem (hb ▸ ha)

theorem insertOrReplace_ne_nil (hist : List ConvMsg) (m : ConvMsg) :
    insertOrReplace hist m ≠ [] := by
  unfold insertOrReplace
  by_cases h : hist.any (fun x => x.conversationId = m.conversationId) = true
  · rw [if_pos h]
    rcases hist with _ | ⟨x, rest⟩
    · simp at h
    · simp
  · rw [if_neg h]
    simp

/-- C6: the histories returned by getConversationState always carry
pairwise-distinct conversation ids; adding a message whose id is already
present replaces it in place in each history (map, same positions, no
new entry) while a fresh id appends; and reading back after
addConversationMessage returns exactly those updated histories, the
final dedup pass finding nothing left to remove. -/
theorem conversation_unique_and_replace (s : ConvStore) (m : ConvMsg) :
    (ids (getConversationState s).runningHistory).Nodup ∧
    (ids (getConversationState s).fullHistory).Nodup ∧
    (getConversationState (addConversationMessage s m)).runningHistory =
      insertOrReplace (getConversationState s).runningHistory m ∧
    (getConversationState (addConversationMessage s m)).fullHistory =
      insertOrReplace (getConversationState s).fullHistory m ∧
    (m.conversationId ∈ ids (getConversationState s).runningHistory →
      insertOrReplace (getConversationState s).runningHistory m =
        (getConversationState s).runningHistory.map
          (fun x => if x.conversationId = m.conversationId then m else x)) ∧
    (m.conversationId ∉ ids (getConversationState s).runningHistory →
      insertOrReplace (getConversationState s).runningHistory m =
        (getConversationState s).runningHistory ++ [m]) := by
  have hndR : (ids (getConversationState s).runningHistory).Nodup :=
    (dedupGo_ids_nodup _ []).1
  have hndF : (ids (getConversationState s).fullHistory).Nodup :=
    (dedupGo_ids_nodup _ []).1
  have hback : ∀ hist : List ConvMsg, (ids hist).Nodup →
      dedupMessages (if (insertOrReplace hist m).isEmpty then s.inMemory
        else insertOrReplace hist m) = insertOrReplace hist m := by
    intro hist hnd
    have hne := insertOrReplace_ne_nil hist m
    rw [if_neg (by simpa [List.isEmpty_iff] using hne)]
    exact dedupGo_eq_self _ _ (insertOrReplace_nodup hist m hnd)
      (fun x _ hc => (List.not_mem_nil x) hc)
  refine ⟨hndR, hndF, ?_, ?_, ?_, ?_⟩
  · exact hback _ hndR
  · exact hback _ hndF
  · intro hmem
    unfold insertOrReplace
    rw [if_pos ((any_id_iff_mem _ m).mpr hmem)]
  · intro hnot
    unfold insertOrReplace
    rw [if_neg (fun hc => hnot ((any_id_iff_mem _ m).mp hc))]

/-- A concrete store holding one message in both tables. -/
def convW : ConvStore :=
  { fullTable := some [⟨"c6a", "user", "hello"⟩]
    compactTable := some [⟨"c6a", "user", "hello"⟩]
    inMemory := [] }

/-- A message whose id is already present in convW. -/
def convM1 : ConvMsg := ⟨"c6a", "assistant", "reply"⟩

/-- A message whose id is fresh for convW. -/
def convM2 : ConvMsg := ⟨"c6b", "user", "again"⟩

/-- C6 evaluated at a concrete store: the message with the present id
is replaced in place and the one with a fresh id is appended. -/
theorem conversation_unique_and_replace_witness :
    insertOrReplace (getConversationState convW).runningHistory convM1 =
      (getConversationState convW).runningHistory.map
        (fun x => if x.conversationId = convM1.conversationId then convM1 else x) ∧
    insertOrReplace (getConversationState convW).runningHistory convM2 =
      (getConversationState convW).runningHistory ++ [convM2] :=
  ⟨(conversation_unique_and_replace convW convM1).2.2.2.2.1 (by decide),
   (conversation_unique_and_replace convW convM2).2.2.2.2.2 (by decide)⟩

/-! ## Phasic build loop (src/worker/agents/core/state.ts,
PhasicAgentBehavior.launchStateMachine / executePhaseGeneration /
executePhaseImplementation / executeFinalizing / executeReviewCycle)

The loop-relevant slice of PhasicState plus the loop locals. The
generateNextPhase operation is an oracle indexed by how many times it
has been called (`none` models the no-more-files answer). The model
follows the happy path: implementPhase succeeds and no user request is
queued during the run, which is exactly the scope of the claim. -/

/-- The part of a phase concept the loop inspects. -/
structure PhaseConcept where
  name : String
  lastPhase : Bool
deriving Repr, DecidableEq

/-- CurrentDevState, with the loop-local `phaseConcept` carried by the
implementing state as launchStateMachine does. -/
inductive DevState where
  | idle
  | phaseGenerating
  | phaseImplementing (pc : PhaseConcept)
  | reviewing
  | finalizing
deriving Repr, DecidableEq

/-- MAX_PHASES from state.ts. -/
def MAX_PHASES : Int := 12

/-- The loop state: dev state with its pending phase concept, the
phases budget counter, the pending user input queue, the mvpGenerated
gate, a count of completed executePhaseImplementation calls, and the
index of the next generateNextPhase call. -/
structure LoopState where
  dev : DevState
  phasesCounter : Int
  pendingUserInputs : List String
  mvpGenerated : Bool
  implementedCount : Nat
  genCalls : Nat
deriving Repr, DecidableEq

/-- Whether the state is inside the budgeted generate/implement loop. -/
def DevState.isBudgetLoop : DevState → Bool
  | .phaseGenerating => true
  | .phaseImplementing _ => true
  | _ => false

/-- One iteration of the launchStateMachine while-loop. In
PHASE_IMPLEMENTING the counter is decremented by decrementPhasesCounter
and the loop moves to FINALIZING exactly when
`(phaseConcept.lastPhase || phasesCounter <= 0) && pendingUserInputs
length == 0`, else back to PHASE_GENERATING. In PHASE_GENERATING a
`none` from generateNextPhase means no more files and moves to
FINALIZING. FINALIZING (gated by mvpGenerated) and REVIEWING each run
once and descend to IDLE. -/
def loopStep (gen : Nat → Option PhaseConcept) (s : LoopState) : LoopState :=
  match s.dev with
  | .idle => s
  | .phaseGenerating =>
    match gen s.genCalls with
    | none => { s with dev := .finalizing, genCalls := s.genCalls + 1 }
    | some pc => { s with dev := .phaseImplementing pc, genCalls := s.genCalls + 1 }
  | .phaseImplementing pc =>
    if (pc.lastPhase || decide (s.phasesCounter - 1 ≤ 0)) &&
        s.pendingUserInputs.isEmpty then
      { s with dev := .finalizing, phasesCounter := s.phasesCounter - 1,
               implementedCount := s.implementedCount + 1 }
    else
      { s with dev := .phaseGenerating, phasesCounter := s.phasesCounter - 1,
               implementedCount := s.implementedCount + 1 }
  | .finalizing =>
    if s.mvpGenerated then { s with dev := .reviewing }
    else { s with dev := .reviewing, mvpGenerated := true }
  | .reviewing => { s with dev := .idle }

/-- Iterate the loop. -/
def runLoop (gen : Nat → Option PhaseConcept) : Nat → LoopState → LoopState
  | 0, s => s
  | n + 1, s => runLoop gen n (loopStep gen s)

/-- The launch state of a fresh build: no phases generated yet, so the
machine starts in PHASE_IMPLEMENTING with blueprint.initialPhase, the
counter at MAX_PHASES and no pending user inputs. -/
def launchInit (initialPhase : PhaseConcept) : LoopState :=
  { dev := .phaseImplementing initialPhase, phasesCounter := MAX_PHASES,
    pendingUserInputs := [], mvpGenerated := false, implementedCount := 0,
    genCalls := 0 }

/-- The budget invariant: no pending inputs, implemented + counter is
constantly MAX_PHASES, the counter never goes negative, and inside the
budgeted loop it is still positive. -/
def LoopInv (s : LoopState) : Prop :=
  s.pendingUserInputs = [] ∧
  (s.implementedCount : Int) + s.phasesCounter = MAX_PHASES ∧
  0 ≤ s.phasesCounter ∧
  (s.dev.isBudgetLoop = true → 1 ≤ s.phasesCounter)

theorem loopStep_preserves_inv (gen : Nat → Option PhaseConcept)
    (s : LoopState) (h : LoopInv s) : LoopInv (loopStep gen s) := by
  obtain ⟨hp, hsum, hnn, hbl⟩ := h
  cases hdev : s.dev with
  | idle =>
    simp only [loopStep, hdev]
    exact ⟨hp, hsum, hnn, hbl⟩
  | phaseGenerating =>
    have hc : 1 ≤ s.phasesCounter := hbl (by rw [hdev]; rfl)
    cases hg : gen s.genCalls <;>
      simp only [loopStep, hdev, hg] <;>
      exact ⟨hp, hsum, hnn, fun _ => hc⟩
  | phaseImplementing pc =>
    have hc : 1 ≤ s.phasesCounter := hbl (by rw [hdev]; rfl)
    by_cases hcond : ((pc.lastPhase || decide (s.phasesCounter - 1 ≤ 0)) &&
        s.pendingUserInputs.isEmpty) = true
    · simp only [loopStep, hdev, if_pos hcond]
      refine ⟨hp, ?_, by dsimp only; omega,
        by intro hx; exact absurd hx (by simp [DevState.isBudgetLoop])⟩
      dsimp only
      push_cast
      omega
    · simp only [loopStep, hdev, if_neg hcond]
      have hempty : s.pendingUserInputs.isEmpty = true := by
        rw [hp]; rfl
      rw [hempty, Bool.and_true, Bool.or_eq_true, not_or] at hcond
      have h2 : ¬(s.phasesCounter - 1 ≤ 0) := by
        intro hx
        exact hcond.2 (by simpa using hx)
      refine ⟨hp, ?_, by dsimp only; omega, fun _ => by dsimp only; omega⟩
      dsimp only
      push_cast
      omega
  | reviewing =>
    simp only [loopStep, hdev]
    exact ⟨hp, hsum, hnn, by intro hx; exact absurd hx (by simp [DevState.isBudgetLoop])⟩
  | finalizing =>
    by_cases hmvp : s.mvpGenerated = true
    · simp only [loopStep, hdev, if_pos hmvp]
      exact ⟨hp, hsum, hnn, by intro hx; exact absurd hx (by simp [DevState.isBudgetLoop])⟩
    · simp only [loopStep, hdev, if_neg hmvp]
      exact ⟨hp, hsum, hnn, by intro hx; exact absurd hx (by simp [DevState.isBudgetLoop])⟩

theorem runLoop_inv (gen : Nat → Option PhaseConcept) (n : Nat)
    (s : LoopState) (h : LoopInv s) : LoopInv (runLoop gen n s) := by
  induction n generalizing s with
  | zero => exact h
  | succ m ih => exact ih _ (loopStep_preserves_inv gen s h)

/-- C1: for every generateNextPhase oracle and every initial phase with
lastPhase false, a build launched with the counter at MAX_PHASES and no
arriving user inputs satisfies, at every iteration: the counter has been
decremented once per implemented phase (implemented + counter =
MAX_PHASES), it never goes negative, it is still positive while the
loop remains in PHASE_GENERATING/PHASE_IMPLEMENTING — hence at most
MAX_PHASES = 12 phases are ever implemented; and one
PHASE_IMPLEMENTING step decrements the counter by exactly one,
counts one implementation, and moves to FINALIZING exactly when
lastPhase holds or the counter has reached 0 (pending inputs being
empty), else back to PHASE_GENERATING. -/
theorem phases_budget (gen : Nat → Option PhaseConcept) (ip : PhaseConcept)
    (hip : ip.lastPhase = false) (n : Nat) :
    ((runLoop gen n (launchInit ip)).pendingUserInputs = [] ∧
     ((runLoop gen n (launchInit ip)).implementedCount : Int) +
        (runLoop gen n (launchInit ip)).phasesCounter = MAX_PHASES ∧
     0 ≤ (runLoop gen n (launchInit ip)).phasesCounter ∧
     ((runLoop gen n (launchInit ip)).implementedCount : Int) ≤ MAX_PHASES) ∧
    (∀ s : LoopState, s.pendingUserInputs = [] →
      ∀ pc : PhaseConcept, s.dev = .phaseImplementing pc →
        (loopStep gen s).phasesCounter = s.phasesCounter - 1 ∧
        (loopStep gen s).implementedCount = s.implementedCount + 1 ∧
        (loopStep gen s).dev =
          (if pc.lastPhase = true ∨ s.phasesCounter - 1 ≤ 0 then
            DevState.finalizing else DevState.phaseGenerating)) := by
  constructor
  · have hinit : LoopInv (launchInit ip) := by
      refine ⟨rfl, by norm_num [launchInit, MAX_PHASES], by norm_num [launchInit, MAX_PHASES], ?_⟩
      intro _
      norm_num [launchInit, MAX_PHASES]
    obtain ⟨hp, hsum, hnn, _⟩ := runLoop_inv gen n (launchInit ip) hinit
    exact ⟨hp, hsum, hnn, by omega⟩
  · intro s hp pc hdev
    have hempty : s.pendingUserInputs.isEmpty = true := by rw [hp]; rfl
    by_cases hcond : ((pc.lastPhase || decide (s.phasesCounter - 1 ≤ 0)) &&
        s.pendingUserInputs.isEmpty) = true
    · simp only [loopStep, hdev, if_pos hcond]
      refine ⟨by trivial, by trivial, ?_⟩
      rw [hempty, Bool.and_true, Bool.or_eq_true] at hcond
      rw [if_pos]
      rcases hcond with h | h
      · exact Or.inl h
      · exact Or.inr (by simpa using h)
    · simp only [loopStep, hdev, if_neg hcond]
      refine ⟨by trivial, by trivial, ?_⟩
      rw [hempty, Bool.and_true, Bool.or_eq_true, not_or] at hcond
      rw [if_neg]
      rintro (h | h)
      · exact hcond.1 h
      · exact hcond.2 (by simpa using h)

/-- Witness for C1: with an oracle that immediately reports no further
phases and the concrete initial phase, after 30 iterations at most
MAX_PHASES phases were implemented and no user input is pending. -/
theorem phases_budget_witness :
    ((runLoop (fun _ => none) 30 (launchInit ⟨"init", false⟩)).implementedCount : Int) ≤
      MAX_PHASES ∧
    (runLoop (fun _ => none) 30 (launchInit ⟨"init", false⟩)).pendingUserInputs = [] := by
  obtain ⟨h1, _, _, h4⟩ := (phases_budget (fun _ => none) ⟨"init", false⟩ rfl 30).1
  exact ⟨h4, h1⟩

/-! ## Git version control (src/unnamed/part_005, GitVersionControl)

A minimal content-addressed repository over the isomorphic-git fork the
class drives: the object store is the list of commit objects (an oid is
the index at which a commit was appended, standing for its content
hash), the index and working tree are path-to-contents association
lists, `refs/heads/main` is an optional oid and HEAD is either a symref
to main (as git.init leaves it) or a detached oid (as
`git.writeRef HEAD <oid> force` leaves it after reset). statusMatrix
rows carry the isomorphic-git state codes; the class checks
`row[1] !== row[2]`, the HEAD code against the WORKDIR code. -/

/-- A stored commit object. -/
structure GitCommitObj where
  tree : List (String × String)
  parent : Option Nat
  message : String
  authorName : String
  authorEmail : String
  timestamp : Int
deriving Repr, DecidableEq

/-- HEAD: a symref to refs/heads/main, or a detached oid. -/
inductive HeadRef where
  | symref
  | detached (oid : Nat)
deriving Repr, DecidableEq

/-- The repository state owned by one GitVersionControl instance. -/
structure GitRepo where
  commits : List GitCommitObj
  index : List (String × String)
  workdir : List (String × String)
  main : Option Nat
  headRef : HeadRef
deriving Repr, DecidableEq

/-- The repository as git.init leaves it. -/
def initRepo : GitRepo :=
  { commits := [], index := [], workdir := [], main := none, headRef := .symref }

/-- Association-list read (first match wins, like a filesystem path). -/
def assocGet : List (String × String) → String → Option String
  | [], _ => none
  | p :: rest, k => if p.1 = k then some p.2 else assocGet rest k

/-- Association-list key test. -/
def assocHas : List (String × String) → String → Bool
  | [], _ => false
  | p :: rest, k => (p.1 = k) || assocHas rest k

/-- Overwrite every entry carrying the key. -/
def assocReplace : List (String × String) → String → String → List (String × String)
  | [], _, _ => []
  | p :: rest, k, v => (if p.1 = k then (k, v) else p) :: assocReplace rest k v

/-- Association-list write: overwrite the entry for the key, or append. -/
def assocSet (l : List (String × String)) (k v : String) : List (String × String) :=
  if assocHas l k then assocReplace l k v else l ++ [(k, v)]

/-- A staged file, as the FileSnapshot the class receives. -/
structure FileSnapshot where
  filePath : String
  fileContents : String
deriving Repr, DecidableEq

/-- Path normalization in stage: strip one leading slash. -/
def normPath (p : String) : String :=
  if jsStartsWith p "/" then String.mk (p.toList.drop 1) else p

/-- GitVersionControl.stage: write each file to the filesystem and
git-add it, so the working tree and the index receive the same bytes. -/
def stageFiles (r : GitRepo) (files : List FileSnapshot) : GitRepo :=
  files.foldl
    (fun acc f =>
      { acc with
        workdir := assocSet acc.workdir (normPath f.filePath) f.fileContents,
        index := assocSet acc.index (normPath f.filePath) f.fileContents })
    r

/-- Resolve HEAD to an oid. -/
def resolveHead (r : GitRepo) : Option Nat :=
  match r.headRef with
  | .symref => r.main
  | .detached o => some o

/-- Read a commit object by oid. -/
def commitAt (r : GitRepo) (oid : Nat) : Option GitCommitObj := r.commits[oid]?

/-- The tree of the commit at an oid (empty when absent). -/
def treeOf (r : GitRepo) (oid : Nat) : List (String × String) :=
  match commitAt r oid with
  | some c => c.tree
  | none => []

/-- The tree HEAD points at. -/
def headTree (r : GitRepo) : List (String × String) :=
  match resolveHead r with
  | some o => treeOf r o
  | none => []

/-- Paths appearing in HEAD, the index or the working tree: the rows of
statusMatrix. -/
def trackedPaths (r : GitRepo) : List String :=
  ((headTree r).map Prod.fst ++ r.index.map Prod.fst ++
    r.workdir.map Prod.fst).dedup

/-- The statusMatrix HEAD state code of a path (row[1]). -/
def headCode (r : GitRepo) (p : String) : Nat :=
  if (assocGet (headTree r) p).isSome then 1 else 0

/-- The statusMatrix WORKDIR state code of a path (row[2]): absent 0,
identical to HEAD 1, different 2. -/
def workdirCode (r : GitRepo) (p : String) : Nat :=
  match assocGet r.workdir p with
  | none => 0
  | some c => if assocGet (headTree r) p = some c then 1 else 2

/-- The statusMatrix STAGE state code of a path (row[3] restricted to
the distinctions the claims mention). -/
def stageCode (r : GitRepo) (p : String) : Nat :=
  match assocGet r.index p with
  | none => 0
  | some c => if assocGet (headTree r) p = some c then 1 else 2

/-- The `status.some(row => row[1] !== row[2])` check of commit. -/
def hasChanges (r : GitRepo) : Bool :=
  (trackedPaths r).any (fun p => !(headCode r p == workdirCode r p))

/-- Staging performed by commit: skipped when the file list is empty. -/
def stagedRepo (r : GitRepo) (files : List FileSnapshot) : GitRepo :=
  if files.isEmpty then r else stageFiles r files

/-- The change check with its try/catch: statusMatrix throws on an
unborn HEAD (first commit) and the catch assumes changes. -/
def commitChanges (r : GitRepo) : Bool :=
  match resolveHead r with
  | none => true
  | some _ => hasChanges r

/-- The commit object git.commit writes: the staged index as its tree,
the current HEAD as parent, the default author of the class. -/
def newCommitObj (r : GitRepo) (msg : String) (ts : Int) : GitCommitObj :=
  { tree := r.index, parent := resolveHead r, message := msg,
    authorName := "Vibesdk", authorEmail := "vibesdk-bot@cloudflare.com",
    timestamp := ts }

/-- Advance the ref HEAD points through to a new oid: a symref moves
the branch, a detached HEAD moves itself. -/
def advanceHead (r : GitRepo) (oid : Nat) : GitRepo :=
  match r.headRef with
  | .symref => { r with main := some oid }
  | .detached _ => { r with headRef := .detached oid }

/-- GitVersionControl.commit: stage (when files are given), check the
status matrix, and either return null or append a commit object and
advance HEAD. -/
def gitCommit (r : GitRepo) (files : List FileSnapshot) (msg : String)
    (ts : Int) : Option Nat × GitRepo :=
  if commitChanges (stagedRepo r files) then
    (some (stagedRepo r files).commits.length,
      advanceHead
        { stagedRepo r files with
          commits := (stagedRepo r files).commits ++
            [newCommitObj (stagedRepo r files) msg ts] }
        (stagedRepo r files).commits.length)
  else (none, stagedRepo r files)

/-- One entry of the log result. -/
structure CommitInfo where
  oid : Nat
  message : String
  author : String
  timestamp : Int
deriving Repr, DecidableEq, Inhabited

/-- Walk commits parent-first from a starting oid, up to a depth,
formatting each as the class does: author `name <email>`, timestamp in
milliseconds. -/
def commitHistory (r : GitRepo) : Option Nat → Nat → List CommitInfo
  | none, _ => []
  | some _, 0 => []
  | some o, limit + 1 =>
    match commitAt r o with
    | none => []
    | some c =>
      { oid := o, message := c.message,
        author := c.authorName ++ " <" ++ c.authorEmail ++ ">",
        timestamp := c.timestamp * 1000 } :: commitHistory r c.parent limit

/-- GitVersionControl.log: `git.log` with ref "main" and depth limit,
empty on failure (no main branch). -/
def gitLog (r : GitRepo) (limit : Nat) : List CommitInfo :=
  commitHistory r r.main limit

/-- A ref argument as reset receives it. -/
inductive GitRef where
  | head
  | mainBranch
  | oid (n : Nat)
deriving Repr, DecidableEq

/-- git.resolveRef. -/
def resolveRef (r : GitRepo) (ref : GitRef) : Option Nat :=
  match ref with
  | .head => resolveHead r
  | .mainBranch => r.main
  | .oid n => if n < r.commits.length then some n else none

/-- GitVersionControl.reset with the default hard mode: resolve the
ref, rewrite HEAD to the bare oid (detaching it; refs/heads/main is not
touched), force-checkout the commit into the working tree and index,
and report the number of files listed in the target commit. `none`
models the thrown error of an unresolvable ref. -/
def gitReset (r : GitRepo) (ref : GitRef) : Option (GitRepo × Nat) :=
  match resolveRef r ref with
  | none => none
  | some o =>
    some
      ({ r with
          headRef := HeadRef.detached o
          workdir := treeOf r o
          index := treeOf r o },
        (treeOf r o).length)

/-- The class invariant of GitVersionControl: every mutation writes the
working tree and the index together, paths are unique in the index, and
committed trees are snapshots of such indexes. -/
def GitInv (r : GitRepo) : Prop :=
  r.workdir = r.index ∧ (r.index.map Prod.fst).Nodup ∧
    ∀ c ∈ r.commits, ((c.tree.map Prod.fst).Nodup)

theorem assocHas_iff_get_isSome (l : List (String × String)) (k : String) :
    assocHas l k = true ↔ (assocGet l k).isSome = true := by
  induction l with
  | nil => simp [assocHas, assocGet]
  | cons p rest ih =>
    by_cases hp : p.1 = k <;> simp [assocHas, assocGet, hp, ih]

theorem assocReplace_keys (l : List (String × String)) (k v : String) :
    (assocReplace l k v).map Prod.fst = l.map Prod.fst := by
  induction l with
  | nil => rfl
  | cons p rest ih =>
    by_cases hp : p.1 = k <;> simp [assocReplace, hp, ih]

theorem assocSet_keys (l : List (String × String)) (k v : String) :
    (assocSet l k v).map Prod.fst =
      if assocHas l k then l.map Prod.fst else l.map Prod.fst ++ [k] := by
  unfold assocSet
  by_cases h : assocHas l k = true
  · rw [if_pos h, if_pos h, assocReplace_keys]
  · rw [if_neg h, if_neg h, List.map_append]
    rfl

theorem mem_keys_of_has (l : List (String × String)) (k : String)
    (h : assocHas l k = true) : k ∈ l.map Prod.fst := by
  induction l with
  | nil => simp [assocHas] at h
  | cons p rest ih =>
    have hor : p.1 = k ∨ assocHas rest k = true := by simpa [assocHas] using h
    rcases hor with h1 | h1
    · simp [h1]
    · simp [ih h1]

theorem has_of_mem_keys (l : List (String × String)) (k : String)
    (h : k ∈ l.map Prod.fst) : assocHas l k = true := by
  induction l with
  | nil => simp at h
  | cons p rest ih =>
    rcases List.mem_cons.mp h with h1 | h1
    · simp [assocHas, h1.symm]
    · simp [assocHas, ih h1]

theorem assocSet_keys_nodup (l : List (String × String)) (k v : String)
    (h : (l.map Prod.fst).Nodup) : ((assocSet l k v).map Prod.fst).Nodup := by
  rw [assocSet_keys]
  by_cases ha : assocHas l k = true
  · rw [if_pos ha]; exact h
  · rw [if_neg ha]
    refine List.Nodup.append h (List.nodup_singleton _) ?_
    intro a hal har
    rw [List.mem_singleton] at har
    subst har
    exact ha (has_of_mem_keys l a hal)

theorem assocGet_assocSet_self (l : List (String × String)) (k v : String) :
    assocGet (assocSet l k v) k = some v := by
  unfold assocSet
  by_cases h : assocHas l k = true
  · rw [if_pos h]
    induction l with
    | nil => simp [assocHas] at h
    | cons p rest ih =>
      by_cases hp : p.1 = k
      · simp [assocReplace, assocGet, hp]
      · have hr : assocHas rest k = true := by
          have hor : p.1 = k ∨ assocHas rest k = true := by simpa [assocHas] using h
          rcases hor with h1 | h1
          · exact absurd h1 hp
          · exact h1
        simp [assocReplace, assocGet, hp, ih hr]
  · rw [if_neg h]
    induction l with
    | nil => simp [assocGet]
    | cons p rest ih =>
      have hp : ¬p.1 = k := by
        intro hc
        exact h (by simp [assocHas, hc])
      have hr : ¬assocHas rest k = true := by
        intro hc
        exact h (by simp [assocHas, hc])
      simpa [assocGet, hp] using ih hr

theorem assocGet_assocReplace_ne (l : List (String × String)) (k v k2 : String)
    (hne : k2 ≠ k) : assocGet (assocReplace l k v) k2 = assocGet l k2 := by
  induction l with
  | nil => rfl
  | cons p rest ih =>
    by_cases hp : p.1 = k
    · have hk2 : ¬(k = k2) := fun hc => hne hc.symm
      have hp2 : ¬(p.1 = k2) := fun hc => hne (by rw [← hc, hp])
      simp [assocReplace, assocGet, hp, hk2, hp2, ih]
    · by_cases hp2 : p.1 = k2
      · simp only [assocReplace, if_neg hp]
        rw [assocGet, assocGet, if_pos hp2, if_pos hp2]
      · simp [assocReplace, assocGet, hp, hp2, ih]

theorem assocGet_append_one_ne (l : List (String × String)) (k v k2 : String)
    (hne : k2 ≠ k) : assocGet (l ++ [(k, v)]) k2 = assocGet l k2 := by
  induction l with
  | nil => simp [assocGet, show ¬(k = k2) from fun hc => hne hc.symm]
  | cons p rest ih =>
    by_cases hp2 : p.1 = k2
    · simp [assocGet, hp2]
    · simp [assocGet, hp2, ih]

theorem assocGet_assocSet_ne (l : List (String × String)) (k v k2 : String)
    (hne : k2 ≠ k) : assocGet (assocSet l k v) k2 = assocGet l k2 := by
  unfold assocSet
  by_cases h : assocHas l k = true
  · rw [if_pos h]
    exact assocGet_assocReplace_ne l k v k2 hne
  · rw [if_neg h]
    exact assocGet_append_one_ne l k v k2 hne

theorem assocGet_unique (l : List (String × String)) (k v : String)
    (hnd : (l.map Prod.fst).Nodup) (hget : assocGet l k = some v) :
    ∀ q ∈ l, q.1 = k → q = (k, v) := by
  induction l with
  | nil => intro q hq; simp at hq
  | cons p rest ih =>
    have hnd2 : (rest.map Prod.fst).Nodup := (List.nodup_cons.mp (by simpa using hnd)).2
    have hpnot : p.1 ∉ rest.map Prod.fst := (List.nodup_cons.mp (by simpa using hnd)).1
    intro q hq hqk
    rcases List.mem_cons.mp hq with rfl | hq2
    · rw [assocGet, if_pos hqk] at hget
      have : q.2 = v := by simpa using hget
      rw [← hqk, ← this]
    · by_cases hp : p.1 = k
      · exfalso
        apply hpnot
        rw [hp, ← hqk]
        exact List.mem_map.mpr ⟨q, hq2, rfl⟩
      · rw [assocGet, if_neg hp] at hget
        exact ih hnd2 hget q hq2 hqk

theorem assocReplace_eq_self (l : List (String × String)) (k v : String)
    (h : ∀ q ∈ l, q.1 = k → q = (k, v)) : assocReplace l k v = l := by
  induction l with
  | nil => rfl
  | cons p rest ih =>
    by_cases hp : p.1 = k
    · have := h p (List.mem_cons_self _ _) hp
      simp [assocReplace, hp, ← this, ih (fun q hq => h q (List.mem_cons_of_mem _ hq))]
    · simp [assocReplace, hp, ih (fun q hq => h q (List.mem_cons_of_mem _ hq))]

theorem assocSet_eq_self (l : List (String × String)) (k v : String)
    (hnd : (l.map Prod.fst).Nodup) (hget : assocGet l k = some v) :
    assocSet l k v = l := by
  have hhas : assocHas l k = true :=
    (assocHas_iff_get_isSome l k).mpr (by rw [hget]; rfl)
  unfold assocSet
  rw [if_pos hhas]
  exact assocReplace_eq_self l k v (assocGet_unique l k v hnd hget)

theorem stageFiles_commits (r : GitRepo) (files : List FileSnapshot) :
    (stageFiles r files).commits = r.commits ∧
    (stageFiles r files).main = r.main ∧
    (stageFiles r files).headRef = r.headRef := by
  induction files generalizing r with
  | nil => exact ⟨rfl, rfl, rfl⟩
  | cons f fs ih => exact ih _

theorem stageFiles_sync (r : GitRepo) (files : List FileSnapshot)
    (h : r.workdir = r.index) :
    (stageFiles r files).workdir = (stageFiles r files).index := by
  induction files generalizing r with
  | nil => exact h
  | cons f fs ih =>
    apply ih
    show assocSet r.workdir (normPath f.filePath) f.fileContents =
      assocSet r.index (normPath f.filePath) f.fileContents
    rw [h]

theorem stageFiles_index_keys_nodup (r : GitRepo) (files : List FileSnapshot)
    (h : (r.index.map Prod.fst).Nodup) :
    ((stageFiles r files).index.map Prod.fst).Nodup := by
  induction files generalizing r with
  | nil => exact h
  | cons f fs ih =>
    apply ih
    exact assocSet_keys_nodup _ _ _ h

theorem stageFiles_get_ne (r : GitRepo) (files : List FileSnapshot) (k : String)
    (hk : ∀ f ∈ files, normPath f.filePath ≠ k) :
    assocGet (stageFiles r files).index k = assocGet r.index k ∧
    assocGet (stageFiles r files).workdir k = assocGet r.workdir k := by
  induction files generalizing r with
  | nil => exact ⟨rfl, rfl⟩
  | cons f fs ih =>
    have hf : normPath f.filePath ≠ k := hk f (List.mem_cons_self _ _)
    have hrest := ih
      { r with
        workdir := assocSet r.workdir (normPath f.filePath) f.fileContents
        index := assocSet r.index (normPath f.filePath) f.fileContents }
      (fun g hg => hk g (List.mem_cons_of_mem _ hg))
    show assocGet (stageFiles
        { r with
          workdir := assocSet r.workdir (normPath f.filePath) f.fileContents
          index := assocSet r.index (normPath f.filePath) f.fileContents } fs).index
        k = assocGet r.index k ∧
      assocGet (stageFiles
        { r with
          workdir := assocSet r.workdir (normPath f.filePath) f.fileContents
          index := assocSet r.index (normPath f.filePath) f.fileContents } fs).workdir
        k = assocGet r.workdir k
    refine ⟨?_, ?_⟩
    · rw [hrest.1]
      exact assocGet_assocSet_ne _ _ _ _ (fun hc => hf hc.symm)
    · rw [hrest.2]
      exact assocGet_assocSet_ne _ _ _ _ (fun hc => hf hc.symm)

theorem stageFiles_get (r : GitRepo) (files : List FileSnapshot)
    (hpaths : (files.map (fun f => normPath f.filePath)).Nodup) :
    ∀ f ∈ files,
      assocGet (stageFiles r files).index (normPath f.filePath) =
        some f.fileContents ∧
      assocGet (stageFiles r files).workdir (normPath f.filePath) =
        some f.fileContents := by
  induction files generalizing r with
  | nil => intro f hf; simp at hf
  | cons f fs ih =>
    have hhead : normPath f.filePath ∉ fs.map (fun g => normPath g.filePath) :=
      (List.nodup_cons.mp (by simpa using hpaths)).1
    have htail : (fs.map (fun g => normPath g.filePath)).Nodup :=
      (List.nodup_cons.mp (by simpa using hpaths)).2
    intro g hg
    rcases List.mem_cons.mp hg with rfl | hg2
    · have hne : ∀ x ∈ fs, normPath x.filePath ≠ normPath g.filePath := by
        intro x hx hc
        exact hhead (hc ▸ List.mem_map.mpr ⟨x, hx, rfl⟩)
      have hstep := stageFiles_get_ne
        { r with
          workdir := assocSet r.workdir (normPath g.filePath) g.fileContents
          index := assocSet r.index (normPath g.filePath) g.fileContents }
        fs (normPath g.filePath) hne
      refine ⟨?_, ?_⟩
      · show assocGet (stageFiles _ fs).index _ = _
        rw [hstep.1]
        exact assocGet_assocSet_self _ _ _
      · show assocGet (stageFiles _ fs).workdir _ = _
        rw [hstep.2]
        exact assocGet_assocSet_self _ _ _
    · exact ih _ htail g hg2

theorem stageFiles_id (r : GitRepo) (files : List FileSnapshot)
    (hnodW : (r.workdir.map Prod.fst).Nodup)
    (hnodI : (r.index.map Prod.fst).Nodup)
    (hW : ∀ f ∈ files,
      assocGet r.workdir (normPath f.filePath) = some f.fileContents)
    (hI : ∀ f ∈ files,
      assocGet r.index (normPath f.filePath) = some f.fileContents) :
    stageFiles r files = r := by
  induction files with
  | nil => rfl
  | cons f fs ih =>
    have hWf := hW f (List.mem_cons_self _ _)
    have hIf := hI f (List.mem_cons_self _ _)
    have hstep :
        ({ r with
            workdir := assocSet r.workdir (normPath f.filePath) f.fileContents
            index := assocSet r.index (normPath f.filePath) f.fileContents } :
          GitRepo) = r := by
      rw [assocSet_eq_self _ _ _ hnodW hWf, assocSet_eq_self _ _ _ hnodI hIf]
    show stageFiles
      { r with
        workdir := assocSet r.workdir (normPath f.filePath) f.fileContents
        index := assocSet r.index (normPath f.filePath) f.fileContents } fs = r
    rw [hstep]
    exact ih (fun g hg => hW g (List.mem_cons_of_mem _ hg))
      (fun g hg => hI g (List.mem_cons_of_mem _ hg))

theorem advanceHead_fields (r : GitRepo) (o : Nat) :
    (advanceHead r o).index = r.index ∧ (advanceHead r o).workdir = r.workdir ∧
    (advanceHead r o).commits = r.commits := by
  cases hh : r.headRef <;> simp [advanceHead, hh]

theorem resolveHead_advanceHead (r : GitRepo) (o : Nat) :
    resolveHead (advanceHead r o) = some o := by
  cases hh : r.headRef <;> simp [advanceHead, resolveHead, hh]

theorem getElem?_append_length (l : List GitCommitObj) (a : GitCommitObj) :
    (l ++ [a])[l.length]? = some a := by
  induction l with
  | nil => rfl
  | cons x rest ih => simpa using ih

theorem workdirCode_eq_stageCode_of_sync (r : GitRepo) (p : String)
    (h : r.workdir = r.index) : workdirCode r p = stageCode r p := by
  unfold workdirCode stageCode
  rw [h]

theorem hasChanges_false_of_sync (r : GitRepo) (h1 : headTree r = r.index)
    (h2 : r.workdir = r.index) : hasChanges r = false := by
  unfold hasChanges
  rw [List.any_eq_false]
  intro p _
  have hcodes : headCode r p = workdirCode r p := by
    unfold headCode workdirCode
    rw [h1, h2]
    cases hg : assocGet r.index p <;> simp [hg]
  simp [hcodes]

theorem gitCommit_pos (r : GitRepo) (files : List FileSnapshot) (msg : String)
    (ts : Int) (h : commitChanges (stagedRepo r files) = true) :
    gitCommit r files msg ts =
      (some (stagedRepo r files).commits.length,
        advanceHead
          { stagedRepo r files with
            commits := (stagedRepo r files).commits ++
              [newCommitObj (stagedRepo r files) msg ts] }
          (stagedRepo r files).commits.length) := by
  unfold gitCommit
  rw [if_pos h]

theorem gitCommit_neg (r : GitRepo) (files : List FileSnapshot) (msg : String)
    (ts : Int) (h : commitChanges (stagedRepo r files) = false) :
    gitCommit r files msg ts = (none, stagedRepo r files) := by
  unfold gitCommit
  rw [if_neg (by simp [h])]

/-- C2: within the class invariant (working tree and index written
together, unique index paths, file lists with unique normalized paths),
committing a nonempty file list twice in a row: when the first commit
returns an oid, that oid is fresh (the next object slot), the second
call returns null because no status-matrix row differs, and the
repository — HEAD included — is exactly as the first call left it;
moreover the first call can only have created a commit because some
tracked path had a HEAD state differing from its staged state. -/
theorem git_commit_idempotent (r : GitRepo) (files : List FileSnapshot)
    (m1 m2 : String) (t1 t2 : Int)
    (hsync : r.workdir = r.index)
    (hnod : (r.index.map Prod.fst).Nodup)
    (hpaths : (files.map (fun f => normPath f.filePath)).Nodup)
    (hne : files ≠ []) :
    ((gitCommit r files m1 t1).1.isSome = true →
      (gitCommit (gitCommit r files m1 t1).2 files m2 t2).1 = none ∧
      (gitCommit (gitCommit r files m1 t1).2 files m2 t2).2 =
        (gitCommit r files m1 t1).2) ∧
    ((gitCommit r files m1 t1).1.isSome = true →
      (gitCommit r files m1 t1).1 = some r.commits.length) ∧
    ((gitCommit r files m1 t1).1.isSome = true →
      ∃ p ∈ trackedPaths (stagedRepo r files),
        headCode (stagedRepo r files) p ≠ stageCode (stagedRepo r files) p) := by
  have hempty : files.isEmpty = false := by
    cases files with
    | nil => exact absurd rfl hne
    | cons a l => rfl
  have hrs : stagedRepo r files = stageFiles r files := by
    unfold stagedRepo
    rw [hempty]
    rfl
  by_cases hch : commitChanges (stagedRepo r files) = true
  case neg =>
    have hres := gitCommit_neg r files m1 t1 (by simpa using hch)
    refine ⟨?_, ?_, ?_⟩ <;> intro hs <;> rw [hres] at hs <;> simp at hs
  case pos =>
    have hres := gitCommit_pos r files m1 t1 hch
    -- shorthand facts about the staged repository
    have hsyncS : (stageFiles r files).workdir = (stageFiles r files).index :=
      stageFiles_sync r files hsync
    have hnodS : ((stageFiles r files).index.map Prod.fst).Nodup :=
      stageFiles_index_keys_nodup r files hnod
    have hgetS := stageFiles_get r files hpaths
    -- the repository produced by the first call
    have hAH := advanceHead_fields
      { stageFiles r files with
        commits := (stageFiles r files).commits ++
          [newCommitObj (stageFiles r files) m1 t1] }
      (stageFiles r files).commits.length
    have hr2 :
        (gitCommit r files m1 t1).2 =
          advanceHead
            { stageFiles r files with
              commits := (stageFiles r files).commits ++
                [newCommitObj (stageFiles r files) m1 t1] }
            (stageFiles r files).commits.length := by
      rw [hres, hrs]
    have hidx : (gitCommit r files m1 t1).2.index = (stageFiles r files).index := by
      rw [hr2, hAH.1]
    have hwd : (gitCommit r files m1 t1).2.workdir = (stageFiles r files).workdir := by
      rw [hr2, hAH.2.1]
    have hcm : (gitCommit r files m1 t1).2.commits =
        (stageFiles r files).commits ++ [newCommitObj (stageFiles r files) m1 t1] := by
      rw [hr2, hAH.2.2]
    have hrh : resolveHead (gitCommit r files m1 t1).2 =
        some (stageFiles r files).commits.length := by
      rw [hr2]
      exact resolveHead_advanceHead _ _
    have hca : commitAt (gitCommit r files m1 t1).2
        (stageFiles r files).commits.length =
        some (newCommitObj (stageFiles r files) m1 t1) := by
      unfold commitAt
      rw [hcm]
      exact getElem?_append_length _ _
    have hht : headTree (gitCommit r files m1 t1).2 =
        (gitCommit r files m1 t1).2.index := by
      unfold headTree
      simp only [hrh]
      unfold treeOf
      simp only [hca]
      rw [hidx]
      rfl
    have hsync2 : (gitCommit r files m1 t1).2.workdir =
        (gitCommit r files m1 t1).2.index := by
      rw [hidx, hwd, hsyncS]
    -- the second staging changes nothing
    have hstage2 : stagedRepo (gitCommit r files m1 t1).2 files =
        (gitCommit r files m1 t1).2 := by
      unfold stagedRepo
      rw [hempty]
      show stageFiles (gitCommit r files m1 t1).2 files = _
      apply stageFiles_id
      · rw [hwd, hsyncS]
        exact hnodS
      · rw [hidx]
        exact hnodS
      · intro f hf
        rw [hwd, hsyncS]
        exact (hgetS f hf).1
      · intro f hf
        rw [hidx]
        exact (hgetS f hf).1
    have hch2 : commitChanges (stagedRepo (gitCommit r files m1 t1).2 files) = false := by
      rw [hstage2]
      unfold commitChanges
      rw [hrh]
      exact hasChanges_false_of_sync _ hht hsync2
    refine ⟨?_, ?_, ?_⟩
    · intro _
      have h2 := gitCommit_neg (gitCommit r files m1 t1).2 files m2 t2 hch2
      rw [h2, hstage2]
      exact ⟨rfl, rfl⟩
    · intro _
      rw [hres, hrs]
      have : (stageFiles r files).commits = r.commits := (stageFiles_commits r files).1
      rw [this]
    · intro _
      cases hrhS : resolveHead (stageFiles r files) with
      | none =>
        rcases List.exists_mem_of_ne_nil files hne with ⟨f0, hf0⟩
        refine ⟨normPath f0.filePath, ?_, ?_⟩
        · rw [hrs]
          unfold trackedPaths
          rw [List.mem_dedup]
          refine List.mem_append.mpr (Or.inl (List.mem_append.mpr (Or.inr ?_)))
          exact mem_keys_of_has _ _
            ((assocHas_iff_get_isSome _ _).mpr (by rw [(hgetS f0 hf0).1]; rfl))
        · rw [hrs]
          have hhtS : headTree (stageFiles r files) = [] := by
            unfold headTree
            rw [hrhS]
          unfold headCode stageCode
          rw [hhtS, (hgetS f0 hf0).1]
          simp [assocGet]
      | some h0 =>
        have hhc : hasChanges (stagedRepo r files) = true := by
          have h := hch
          unfold commitChanges at h
          rw [hrs] at h
          simp only [hrhS] at h
          rw [hrs]
          exact h
        unfold hasChanges at hhc
        rcases List.any_eq_true.mp hhc with ⟨p, hp, hpc⟩
        refine ⟨p, hp, ?_⟩
        rw [← workdirCode_eq_stageCode_of_sync _ _ (by rw [hrs]; exact hsyncS)]
        intro hceq
        rw [hceq] at hpc
        simp at hpc

theorem gitInv_init : GitInv initRepo :=
  ⟨rfl, List.nodup_nil, fun c hc => absurd hc (List.not_mem_nil c)⟩

theorem gitInv_stage (r : GitRepo) (files : List FileSnapshot)
    (h : GitInv r) : GitInv (stageFiles r files) :=
  ⟨stageFiles_sync r files h.1, stageFiles_index_keys_nodup r files h.2.1,
    by rw [(stageFiles_commits r files).1]; exact h.2.2⟩

theorem gitInv_staged (r : GitRepo) (files : List FileSnapshot)
    (h : GitInv r) : GitInv (stagedRepo r files) := by
  unfold stagedRepo
  by_cases he : files.isEmpty = true
  · rw [if_pos he]; exact h
  · rw [if_neg he]; exact gitInv_stage r files h

theorem gitInv_commit (r : GitRepo) (files : List FileSnapshot)
    (msg : String) (ts : Int) (h : GitInv r) :
    GitInv (gitCommit r files msg ts).2 := by
  have hs := gitInv_staged r files h
  by_cases hch : commitChanges (stagedRepo r files) = true
  · rw [gitCommit_pos r files msg ts hch]
    have hAH := advanceHead_fields
      { stagedRepo r files with
        commits := (stagedRepo r files).commits ++
          [newCommitObj (stagedRepo r files) msg ts] }
      (stagedRepo r files).commits.length
    refine ⟨?_, ?_, ?_⟩
    · show (advanceHead _ _).workdir = (advanceHead _ _).index
      rw [hAH.1, hAH.2.1]
      exact hs.1
    · show ((advanceHead _ _).index.map Prod.fst).Nodup
      rw [hAH.1]
      exact hs.2.1
    · intro c hc
      rw [hAH.2.2] at hc
      rcases List.mem_append.mp hc with h1 | h1
      · exact hs.2.2 c h1
      · rw [List.mem_singleton] at h1
        subst h1
        exact hs.2.1
  · rw [gitCommit_neg r files msg ts (by simpa using hch)]
    exact hs

theorem gitInv_reset (r : GitRepo) (ref : GitRef) (r2 : GitRepo) (n : Nat)
    (h : GitInv r) (hres : gitReset r ref = some (r2, n)) : GitInv r2 := by
  unfold gitReset at hres
  cases hro : resolveRef r ref with
  | none => rw [hro] at hres; exact absurd hres (by simp)
  | some o =>
    rw [hro] at hres
    simp only [Option.some.injEq, Prod.mk.injEq] at hres
    have hr2 := hres.1
    have htree : ((treeOf r o).map Prod.fst).Nodup := by
      unfold treeOf
      cases hca : commitAt r o with
      | none => simp
      | some c =>
        have hmem : c ∈ r.commits := by
          unfold commitAt at hca
          exact List.getElem?_mem hca
        simpa using h.2.2 c hmem
    refine ⟨?_, ?_, ?_⟩
    · rw [← hr2]
    · rw [← hr2]
      exact htree
    · rw [← hr2]
      exact h.2.2

/-- A concrete repository with one commit, used by the C2 witness. -/
def c2base : GitRepo := (gitCommit initRepo [⟨"a", "1"⟩] "c0" 0).2

/-- Witness for C2 at a concrete repository and file list: committing
the changed file yields a fresh oid and repeating the identical commit
returns null with the repository unchanged. -/
theorem git_commit_idempotent_witness :
    c2base.workdir = c2base.index ∧
    (c2base.index.map Prod.fst).Nodup ∧
    (([⟨"a", "2"⟩] : List FileSnapshot).map
      (fun f => normPath f.filePath)).Nodup ∧
    (gitCommit c2base [⟨"a", "2"⟩] "c1" 5).1 = some c2base.commits.length ∧
    (gitCommit (gitCommit c2base [⟨"a", "2"⟩] "c1" 5).2 [⟨"a", "2"⟩] "c1b" 6).1 =
      none ∧
    (gitCommit (gitCommit c2base [⟨"a", "2"⟩] "c1" 5).2 [⟨"a", "2"⟩] "c1b" 6).2 =
      (gitCommit c2base [⟨"a", "2"⟩] "c1" 5).2 := by
  have hthm := git_commit_idempotent c2base [⟨"a", "2"⟩] "c1" "c1b" 5 6
    (by decide) (by decide) (by decide) (by decide)
  have hsome : (gitCommit c2base [⟨"a", "2"⟩] "c1" 5).1.isSome = true := by decide
  exact ⟨by decide, by decide, by decide, hthm.2.1 hsome,
    (hthm.1 hsome).1, (hthm.1 hsome).2⟩

theorem commitHistory_mem (r : GitRepo) :
    ∀ (limit : Nat) (o : Option Nat), ∀ e ∈ commitHistory r o limit,
      ∃ c, commitAt r e.oid = some c ∧ e.message = c.message ∧
        e.timestamp = c.timestamp * 1000 ∧
        e.author = c.authorName ++ " <" ++ c.authorEmail ++ ">" := by
  intro limit
  induction limit with
  | zero =>
    intro o e he
    cases o <;> simp [commitHistory] at he
  | succ l ih =>
    intro o e he
    cases o with
    | none => simp [commitHistory] at he
    | some oid =>
      unfold commitHistory at he
      cases hca : commitAt r oid with
      | none => rw [hca] at he; simp at he
      | some c =>
        rw [hca] at he
        rcases List.mem_cons.mp he with rfl | he2
        · exact ⟨c, hca, rfl, rfl, rfl⟩
        · exact ih c.parent e he2

theorem commitHistory_head (r : GitRepo) (limit : Nat) (o : Option Nat)
    (h : commitHistory r o limit ≠ []) :
    ∃ p c, o = some p ∧ commitAt r p = some c ∧
      ((commitHistory r o limit).getD 0 default).oid = p := by
  cases o with
  | none =>
    exact absurd (show commitHistory r none limit = [] by cases limit <;> rfl) h
  | some p =>
    cases limit with
    | zero => exact absurd rfl h
    | succ l =>
      cases hca : commitAt r p with
      | none =>
        exfalso
        apply h
        unfold commitHistory
        rw [hca]
      | some c =>
        refine ⟨p, c, rfl, hca, ?_⟩
        unfold commitHistory
        rw [hca]
        rfl

theorem commitHistory_chain (r : GitRepo) :
    ∀ (limit : Nat) (o : Option Nat) (i : Nat),
      i + 1 < (commitHistory r o limit).length →
      ∃ c, commitAt r ((commitHistory r o limit).getD i default).oid = some c ∧
        c.parent = some ((commitHistory r o limit).getD (i + 1) default).oid := by
  intro limit
  induction limit with
  | zero =>
    intro o i hlen
    cases o <;> simp [commitHistory] at hlen
  | succ l ih =>
    intro o i hlen
    cases o with
    | none => simp [commitHistory] at hlen
    | some oid =>
      cases hca : commitAt r oid with
      | none =>
        unfold commitHistory at hlen
        rw [hca] at hlen
        simp at hlen
      | some c =>
        have hexp : commitHistory r (some oid) (l + 1) =
            { oid := oid, message := c.message,
              author := c.authorName ++ " <" ++ c.authorEmail ++ ">",
              timestamp := c.timestamp * 1000 } ::
              commitHistory r c.parent l := by
          simp only [commitHistory, hca]
        rw [hexp] at hlen ⊢
        cases i with
        | zero =>
          have htne : commitHistory r c.parent l ≠ [] := by
            intro hc
            rw [hc] at hlen
            simp at hlen
          rcases commitHistory_head r l c.parent htne with ⟨p, c2, hpar, _, hoid⟩
          rw [List.getD_cons_zero, List.getD_cons_succ]
          exact ⟨c, hca, by rw [hoid, hpar]⟩
        | succ j =>
          rw [List.getD_cons_succ, List.getD_cons_succ]
          apply ih c.parent j
          simpa using hlen

theorem commitHistory_commits_only (r r2 : GitRepo)
    (h : r2.commits = r.commits) :
    ∀ (limit : Nat) (o : Option Nat),
      commitHistory r2 o limit = commitHistory r o limit := by
  intro limit
  induction limit with
  | zero => intro o; cases o <;> rfl
  | succ l ih =>
    intro o
    cases o with
    | none => rfl
    | some oid =>
      have hca : commitAt r2 oid = commitAt r oid := by
        unfold commitAt
        rw [h]
      cases hc2 : commitAt r oid with
      | none => simp only [commitHistory, hca, hc2]
      | some c =>
        simp only [commitHistory, hca, hc2]
        rw [ih c.parent]

/-- C5 as amended: log walks parent-first from the `main` ref — not
from HEAD — formatting each commit with its oid, message,
`name <email>` author string and millisecond timestamp, and returns the
empty list when main cannot be resolved; consecutive entries follow the
parent chain; and since reset rewrites only HEAD (detaching it to the
target oid), the log after a reset is unchanged while getHead resolves
to the reset target, and filesReset counts the files of the target
commit. -/
theorem gitLog_walks_main (r : GitRepo) (limit : Nat) (ref : GitRef) :
    gitLog r limit = commitHistory r r.main limit ∧
    (r.main = none → gitLog r limit = []) ∧
    (∀ e ∈ gitLog r limit, ∃ c, commitAt r e.oid = some c ∧
      e.message = c.message ∧ e.timestamp = c.timestamp * 1000 ∧
      e.author = c.authorName ++ " <" ++ c.authorEmail ++ ">") ∧
    (∀ i : Nat, i + 1 < (gitLog r limit).length →
      ∃ c, commitAt r ((gitLog r limit).getD i default).oid = some c ∧
        c.parent = some ((gitLog r limit).getD (i + 1) default).oid) ∧
    (∀ (r2 : GitRepo) (n : Nat), gitReset r ref = some (r2, n) →
      gitLog r2 limit = gitLog r limit ∧
      resolveHead r2 = resolveRef r ref ∧
      n = (treeOf r ((resolveRef r ref).getD 0)).length) := by
  refine ⟨rfl, ?_, ?_, ?_, ?_⟩
  · intro hm
    unfold gitLog
    rw [hm]
    cases limit <;> rfl
  · exact commitHistory_mem r limit r.main
  · exact commitHistory_chain r limit r.main
  · intro r2 n hres
    unfold gitReset at hres
    cases hro : resolveRef r ref with
    | none => rw [hro] at hres; exact absurd hres (by simp)
    | some o =>
      rw [hro] at hres
      simp only [Option.some.injEq, Prod.mk.injEq] at hres
      have hmain : r2.main = r.main := by rw [← hres.1]
      have hcomm : r2.commits = r.commits := by rw [← hres.1]
      have hhead : r2.headRef = HeadRef.detached o := by rw [← hres.1]
      refine ⟨?_, ?_, ?_⟩
      · unfold gitLog
        rw [hmain, commitHistory_commits_only r r2 hcomm]
      · have hrh : resolveHead r2 = some o := by
          unfold resolveHead
          simp only [hhead]
        rw [hrh]
      · exact hres.2.symm

/-- The two-commit repository of the C5 counterexample. -/
def c5repo : GitRepo :=
  (gitCommit (gitCommit initRepo [⟨"f", "1"⟩] "c1" 1).2 [⟨"f", "2"⟩] "c2" 2).2

/-- The repository after `reset` to the first commit (oid 0). -/
def c5after : GitRepo := ((gitReset c5repo (GitRef.oid 0)).getD (initRepo, 0)).1

/-- C5 counterexample: after reset moves HEAD to the earlier commit,
log still returns both commits (the history of the untouched `main`
ref), not the single commit reachable from the new HEAD — refuting the
claim that log returns the history reachable from HEAD. -/
theorem gitLog_after_reset_counterexample :
    (gitReset c5repo (GitRef.oid 0)).isSome = true ∧
    resolveHead c5after = some 0 ∧
    (gitLog c5after 50).length = 2 ∧
    (commitHistory c5after (resolveHead c5after) 50).length = 1 ∧
    gitLog c5after 50 ≠ commitHistory c5after (resolveHead c5after) 50 := by
  decide

/-- Witness for the amended C5 at the concrete two-commit repository:
the reset to oid 0 leaves the log unchanged while HEAD now resolves to
the reset target. -/
theorem gitLog_walks_main_witness :
    gitLog c5after 50 = gitLog c5repo 50 ∧ resolveHead c5after = some 0 := by
  have h := (gitLog_walks_main c5repo 50 (GitRef.oid 0)).2.2.2.2 c5after 1
    (by decide)
  exact ⟨h.1, h.2.1.trans (by decide)⟩

/-! ## GitHub export blob deduplication
(src/worker/services/github/GitHubService.ts, forcePushToGitHub)

Per commit the export walks the flat file list (path, content). For
each file it checks the in-run blobCache (content hash → GitHub blob
sha) synchronously; every cache-missing file is pushed onto a batch of
createBlob calls, and the cache is populated only when those calls
resolve, at the end of the batch. The commit list therefore processes
each commit in two phases: first partition by the cache as it stood at
the start of the commit, then create one remote blob per missing file
and record the returned sha. Commits with no files are skipped. The
content hash (SHA-256 hex in the source) is an abstract function, taken
injective where needed; the remote sha returned by createBlob is
modelled deterministically from the hash. -/

/-- The files of one commit whose content hash misses the blobCache at
the start of that commit: each one triggers a createBlob call. -/
def blobMisses (hash : String → String) (cache : List (String × String))
    (files : List (String × String)) : List (String × String) :=
  files.filter (fun f => !(assocHas cache (hash f.2)))

/-- The cache after the createBlob batch of one commit resolves. -/
def commitBlobCache (hash : String → String) (cache : List (String × String))
    (files : List (String × String)) : List (String × String) :=
  (blobMisses hash cache files).foldl
    (fun c f => assocSet c (hash f.2) ("blob:" ++ hash f.2)) cache

/-- Process one commit: skip it when it has no files, else return the
updated cache and the number of createBlob calls it made. -/
def processCommit (hash : String → String) (cache : List (String × String))
    (files : List (String × String)) : List (String × String) × Nat :=
  if files.isEmpty then (cache, 0)
  else (commitBlobCache hash cache files, (blobMisses hash cache files).length)

/-- The whole export run over the oldest-to-newest commit list:
final blobCache and total number of createBlob calls. -/
def exportRun (hash : String → String) :
    List (List (String × String)) → List (String × String) →
      List (String × String) × Nat
  | [], cache => (cache, 0)
  | fs :: rest, cache =>
    ((exportRun hash rest (processCommit hash cache fs).1).1,
      (processCommit hash cache fs).2 +
        (exportRun hash rest (processCommit hash cache fs).1).2)

theorem mem_keys_assocSet (c : List (String × String)) (k v x : String) :
    x ∈ (assocSet c k v).map Prod.fst ↔ x = k ∨ x ∈ c.map Prod.fst := by
  rw [assocSet_keys]
  by_cases h : assocHas c k = true
  · rw [if_pos h]
    constructor
    · exact Or.inr
    · rintro (rfl | hx)
      · exact mem_keys_of_has c x h
      · exact hx
  · rw [if_neg h]
    rw [List.mem_append, List.mem_singleton]
    constructor
    · rintro (hx | rfl)
      · exact Or.inr hx
      · exact Or.inl rfl
    · rintro (rfl | hx)
      · exact Or.inr rfl
      · exact Or.inl hx

theorem assocSet_length_of_not_has (c : List (String × String)) (k v : String)
    (h : assocHas c k = false) : (assocSet c k v).length = c.length + 1 := by
  unfold assocSet
  rw [if_neg (by simp [h])]
  simp

theorem foldl_set_keys_nodup (hash : String → String)
    (misses cache : List (String × String))
    (h : (cache.map Prod.fst).Nodup) :
    ((misses.foldl (fun c f => assocSet c (hash f.2) ("blob:" ++ hash f.2))
      cache).map Prod.fst).Nodup := by
  induction misses generalizing cache with
  | nil => exact h
  | cons f fs ih => exact ih _ (assocSet_keys_nodup _ _ _ h)

theorem foldl_set_mem (hash : String → String)
    (misses cache : List (String × String)) (x : String) :
    (x ∈ (misses.foldl (fun c f => assocSet c (hash f.2) ("blob:" ++ hash f.2))
        cache).map Prod.fst) ↔
      x ∈ cache.map Prod.fst ∨ ∃ f ∈ misses, hash f.2 = x := by
  induction misses generalizing cache with
  | nil => simp
  | cons f fs ih =>
    rw [List.foldl_cons, ih, mem_keys_assocSet]
    constructor
    · rintro ((rfl | hx) | ⟨g, hg, hgx⟩)
      · exact Or.inr ⟨f, List.mem_cons_self _ _, rfl⟩
      · exact Or.inl hx
      · exact Or.inr ⟨g, List.mem_cons_of_mem _ hg, hgx⟩
    · rintro (hx | ⟨g, hg, hgx⟩)
      · exact Or.inl (Or.inr hx)
      · rcases List.mem_cons.mp hg with rfl | hg2
        · exact Or.inl (Or.inl hgx.symm)
        · exact Or.inr ⟨g, hg2, hgx⟩

theorem foldl_set_length (hash : String → String)
    (misses cache : List (String × String))
    (hnotin : ∀ f ∈ misses, assocHas cache (hash f.2) = false)
    (hnod : (misses.map (fun f => hash f.2)).Nodup) :
    (misses.foldl (fun c f => assocSet c (hash f.2) ("blob:" ++ hash f.2))
      cache).length = cache.length + misses.length := by
  induction misses generalizing cache with
  | nil => simp
  | cons f fs ih =>
    have h0 : assocHas cache (hash f.2) = false := hnotin f (List.mem_cons_self _ _)
    have hheadnot : hash f.2 ∉ fs.map (fun g => hash g.2) :=
      (List.nodup_cons.mp (by simpa using hnod)).1
    have htailnod : (fs.map (fun g => hash g.2)).Nodup :=
      (List.nodup_cons.mp (by simpa using hnod)).2
    have htail : ∀ g ∈ fs,
        assocHas (assocSet cache (hash f.2) ("blob:" ++ hash f.2))
          (hash g.2) = false := by
      intro g hg
      cases hh : assocHas (assocSet cache (hash f.2) ("blob:" ++ hash f.2))
          (hash g.2) with
      | false => rfl
      | true =>
        exfalso
        rcases (mem_keys_assocSet cache (hash f.2) _ (hash g.2)).mp
            (mem_keys_of_has _ _ hh) with heq | hmem
        · exact hheadnot (heq ▸ List.mem_map.mpr ⟨g, hg, rfl⟩)
        · have hhas := has_of_mem_keys cache (hash g.2) hmem
          rw [hnotin g (List.mem_cons_of_mem _ hg)] at hhas
          simp at hhas
    rw [List.foldl_cons, ih _ htail htailnod,
      assocSet_length_of_not_has cache (hash f.2) _ h0, List.length_cons]
    omega

theorem blobMisses_not_has (hash : String → String)
    (cache files : List (String × String)) :
    ∀ f ∈ blobMisses hash cache files, assocHas cache (hash f.2) = false := by
  intro f hf
  have := (List.mem_filter.mp hf).2
  simpa using this

theorem blobMisses_hash_nodup (hash : String → String)
    (cache files : List (String × String))
    (h : (files.map (fun f => hash f.2)).Nodup) :
    ((blobMisses hash cache files).map (fun f => hash f.2)).Nodup :=
  h.sublist (List.Sublist.map _ (List.filter_sublist files))

theorem processCommit_keys_nodup (hash : String → String)
    (cache files : List (String × String))
    (h : (cache.map Prod.fst).Nodup) :
    (((processCommit hash cache files).1).map Prod.fst).Nodup := by
  unfold processCommit
  by_cases he : files.isEmpty = true
  · rw [if_pos he]; exact h
  · rw [if_neg he]
    exact foldl_set_keys_nodup hash _ cache h

theorem processCommit_mem (hash : String → String)
    (cache files : List (String × String)) (x : String) :
    (x ∈ ((processCommit hash cache files).1).map Prod.fst) ↔
      x ∈ cache.map Prod.fst ∨ ∃ f ∈ files, hash f.2 = x := by
  unfold processCommit
  by_cases he : files.isEmpty = true
  · rw [if_pos he]
    have : files = [] := List.isEmpty_iff.mp he
    subst this
    simp
  · rw [if_neg he]
    show (x ∈ (commitBlobCache hash cache files).map Prod.fst) ↔ _
    unfold commitBlobCache
    rw [foldl_set_mem]
    constructor
    · rintro (hx | ⟨f, hf, hfx⟩)
      · exact Or.inl hx
      · exact Or.inr ⟨f, (List.mem_filter.mp hf).1, hfx⟩
    · rintro (hx | ⟨f, hf, hfx⟩)
      · exact Or.inl hx
      · by_cases hhit : assocHas cache (hash f.2) = true
        · exact Or.inl (hfx ▸ mem_keys_of_has _ _ hhit)
        · refine Or.inr ⟨f, ?_, hfx⟩
          exact List.mem_filter.mpr ⟨hf, by simpa using hhit⟩

theorem processCommit_length (hash : String → String)
    (cache files : List (String × String))
    (hnodh : (files.map (fun f => hash f.2)).Nodup) :
    ((processCommit hash cache files).1).length =
      cache.length + (processCommit hash cache files).2 := by
  unfold processCommit
  by_cases he : files.isEmpty = true
  · rw [if_pos he]; simp
  · rw [if_neg he]
    show (commitBlobCache hash cache files).length = _
    unfold commitBlobCache
    exact foldl_set_length hash _ cache (blobMisses_not_has hash cache files)
      (blobMisses_hash_nodup hash cache files hnodh)

theorem exportRun_keys_nodup (hash : String → String)
    (commits : List (List (String × String))) :
    ∀ cache : List (String × String), (cache.map Prod.fst).Nodup →
      (((exportRun hash commits cache).1).map Prod.fst).Nodup := by
  induction commits with
  | nil => intro cache h; exact h
  | cons fs rest ih =>
    intro cache h
    exact ih _ (processCommit_keys_nodup hash cache fs h)

theorem exportRun_mem (hash : String → String)
    (commits : List (List (String × String))) :
    ∀ (cache : List (String × String)) (x : String),
      (x ∈ ((exportRun hash commits cache).1).map Prod.fst) ↔
        x ∈ cache.map Prod.fst ∨ ∃ fs ∈ commits, ∃ f ∈ fs, hash f.2 = x := by
  induction commits with
  | nil => intro cache x; simp [exportRun]
  | cons fs rest ih =>
    intro cache x
    show (x ∈ ((exportRun hash rest (processCommit hash cache fs).1).1).map
        Prod.fst) ↔ _
    rw [ih, processCommit_mem]
    constructor
    · rintro ((hx | ⟨f, hf, hfx⟩) | ⟨gs, hgs, f, hf, hfx⟩)
      · exact Or.inl hx
      · exact Or.inr ⟨fs, List.mem_cons_self _ _, f, hf, hfx⟩
      · exact Or.inr ⟨gs, List.mem_cons_of_mem _ hgs, f, hf, hfx⟩
    · rintro (hx | ⟨gs, hgs, f, hf, hfx⟩)
      · exact Or.inl (Or.inl hx)
      · rcases List.mem_cons.mp hgs with rfl | hgs2
        · exact Or.inl (Or.inr ⟨f, hf, hfx⟩)
        · exact Or.inr ⟨gs, hgs2, f, hf, hfx⟩

theorem exportRun_length (hash : String → String)
    (commits : List (List (String × String)))
    (hfs : ∀ fs ∈ commits, ((fs.map (fun f => hash f.2)).Nodup)) :
    ∀ cache : List (String × String),
      ((exportRun hash commits cache).1).length =
        cache.length + (exportRun hash commits cache).2 := by
  induction commits with
  | nil => intro cache; simp [exportRun]
  | cons fs rest ih =>
    intro cache
    have h1 := processCommit_length hash cache fs (hfs fs (List.mem_cons_self _ _))
    have h2 := ih (fun gs hgs => hfs gs (List.mem_cons_of_mem _ hgs))
      (processCommit hash cache fs).1
    show ((exportRun hash rest (processCommit hash cache fs).1).1).length =
      cache.length + ((processCommit hash cache fs).2 +
        (exportRun hash rest (processCommit hash cache fs).1).2)
    rw [h2, h1]
    omega

theorem dedup_map_length (f : String → String) (hf : Function.Injective f)
    (l : List String) : ((l.map f).dedup).length = l.dedup.length := by
  induction l with
  | nil => rfl
  | cons a rest ih =>
    by_cases h : a ∈ rest
    · rw [List.map_cons, List.dedup_cons_of_mem (List.mem_map_of_mem f h),
        List.dedup_cons_of_mem h]
      exact ih
    · have hnot : f a ∉ rest.map f := by
        intro hc
        rcases List.mem_map.mp hc with ⟨b, hb, hfb⟩
        exact h (hf hfb ▸ hb)
      rw [List.map_cons, List.dedup_cons_of_not_mem hnot,
        List.dedup_cons_of_not_mem h]
      simpa using ih

/-- C7 counterexample: a single exported commit holding two files with
identical content makes two createBlob calls, although there is only
one distinct content — the cache is only written when the batched
createBlob calls resolve, after the whole commit was partitioned, so
the claim that each distinct content causes at most one remote blob
creation is false. -/
theorem export_blob_dedup_counterexample :
    (exportRun (fun s => s) [[("a", "x"), ("b", "x")]] []).2 = 2 ∧
    (([("a", "x"), ("b", "x")] : List (String × String)).map
      Prod.snd).dedup.length = 1 := by
  decide

/-- C7 as amended: a file whose content hash is already in the
blobCache when its commit starts is reused and never creates a blob,
while every file missing from the cache at that point creates one — so
duplicate contents within a single commit each create a blob, but
contents cached by earlier commits never do. The blobCache keys are
exactly the hashes of the exported files, each appearing once, the
cache grows by exactly the number of createBlob calls, and when every
commit has pairwise-distinct file contents (hash injective) the total
number of createBlob calls equals the number of distinct file contents
across the run. -/
theorem github_export_blob_dedup (hash : String → String)
    (hinj : Function.Injective hash)
    (commits : List (List (String × String)))
    (cache : List (String × String))
    (hnodc : (cache.map Prod.fst).Nodup)
    (hfs : ∀ fs ∈ commits, ((fs.map (fun f => hash f.2)).Nodup)) :
    (((exportRun hash commits cache).1).map Prod.fst).Nodup ∧
    (∀ x, (x ∈ ((exportRun hash commits cache).1).map Prod.fst) ↔
      x ∈ cache.map Prod.fst ∨ ∃ fs ∈ commits, ∃ f ∈ fs, hash f.2 = x) ∧
    ((exportRun hash commits cache).1).length =
      cache.length + (exportRun hash commits cache).2 ∧
    (cache = [] →
      (exportRun hash commits cache).2 =
        ((commits.flatten.map Prod.snd).dedup).length) := by
  refine ⟨exportRun_keys_nodup hash commits cache hnodc,
    fun x => exportRun_mem hash commits cache x,
    exportRun_length hash commits hfs cache, ?_⟩
  intro hcache
  subst hcache
  have hlen := exportRun_length hash commits hfs []
  have hkeylen : (((exportRun hash commits []).1).map Prod.fst).length =
      ((exportRun hash commits []).1).length := List.length_map _ _
  have hperm : (((exportRun hash commits []).1).map Prod.fst).length =
      ((commits.flatten.map (fun f => hash f.2)).dedup).length := by
    apply List.Perm.length_eq
    rw [List.perm_ext_iff_of_nodup
      (exportRun_keys_nodup hash commits [] List.nodup_nil)
      (List.nodup_dedup _)]
    intro a
    rw [exportRun_mem, List.mem_dedup]
    simp only [List.mem_map]
    constructor
    · rintro (ha | ⟨fs, hfs2, f, hf, hfx⟩)
      · simp at ha
      · exact ⟨f, List.mem_flatten.mpr ⟨fs, hfs2, hf⟩, hfx⟩
    · rintro ⟨f, hf, hfx⟩
      rcases List.mem_flatten.mp hf with ⟨fs, hfs2, hffs⟩
      exact Or.inr ⟨fs, hfs2, f, hffs, hfx⟩
  have hmm : (commits.flatten.map (fun f => hash f.2)) =
      (commits.flatten.map Prod.snd).map hash := by
    rw [List.map_map]
    rfl
  rw [hmm, dedup_map_length hash hinj] at hperm
  rw [List.length_nil] at hlen
  omega

/-- Witness for the amended C7: three commits each touching the same
unchanged file create exactly one remote blob, and the final blobCache
holds exactly the one distinct content hash. -/
theorem github_export_blob_dedup_witness :
    (exportRun (fun s => s) [[("f", "c")], [("f", "c")], [("f", "c")]] []).2 = 1 ∧
    (exportRun (fun s => s) [[("f", "c")], [("f", "c")], [("f", "c")]] []).1.length
      = 1 := by
  have h := github_export_blob_dedup (fun s => s) (fun a b hh => hh)
    [[("f", "c")], [("f", "c")], [("f", "c")]] [] (by decide)
    (by decide)
  refine ⟨(h.2.2.2 rfl).trans (by decide), ?_⟩
  rw [h.2.2.1, h.2.2.2 rfl]
  decide
